import Mathlib

/-!
# Verification of the `mcts` repository's search engines

This development shallowly embeds the two search cores of the repository
(`minimax.py` and `mcts/`) and settles the specification claims against them.

Conventions of the embedding:
* Python floats are modelled as rationals; the IEEE infinities that
  `minimax.py` uses as sentinels (`float('-inf')`, `float('inf')`) are
  modelled by the type `PF` below, which is `ℚ` extended with a bottom and a
  top element.
* Python truthiness is modelled explicitly: `None` is falsy, a float is
  falsy exactly when it equals `0.0`, infinities are truthy.
* The caller-supplied game (state type, `isTerminal`, evaluation function,
  and the composition of the expansion policy with `takeAction`) is a
  parameter of every definition, mirroring the pluggable game contract.
* Fallible Python code (raise statements, out-of-range indexing) is
  modelled with `Except`.
-/

namespace MctsRepo

/-- Python float values as used by `minimax.py`: a rational, or one of the
two infinities.  `⊥` models `float('-inf')`, `⊤` models `float('inf')`. -/
abbrev PF : Type := WithBot (WithTop ℚ)

namespace PF

/-- `float('-inf')`. -/
def ninf : PF := ⊥

/-- `float('inf')`. -/
def pinf : PF := ⊤

/-- Embed a finite float (modelled as a rational) into `PF`. -/
def fin (q : ℚ) : PF := ((q : WithTop ℚ) : PF)

/-- Python truthiness of a float: `0.0` is falsy, everything else (including
the infinities) is truthy. -/
def truthy : PF → Bool
  | ⊥ => true
  | (some none) => true
  | (some (some q)) => decide (q ≠ 0)

/-- Python truthiness of an optional float: `None` is falsy, a float value
is as truthy as the float itself. -/
def otruthy : Option PF → Bool
  | none => false
  | some x => truthy x

@[simp] theorem truthy_ninf : truthy ninf = true := rfl

@[simp] theorem truthy_pinf : truthy pinf = true := rfl

@[simp] theorem otruthy_none : otruthy none = false := rfl

@[simp] theorem otruthy_some (x : PF) : otruthy (some x) = truthy x := rfl

theorem ninf_le (x : PF) : ninf ≤ x := bot_le

theorem le_pinf (x : PF) : x ≤ pinf := le_top

end PF

/-!
## Minimax / Alpha-Beta engine (`minimax.py`, class `Minimax`), cache disabled

The caller-supplied configuration of a `Minimax` engine is a game: a state
type `S`, the terminality test, the evaluation function
(`evaluationFunction(state, depth)`, a float, modelled as a rational), and
the composition of the expansion policy with `takeAction`, i.e. the list of
successor states of `state` when expanded at `depth`
(`[state.takeAction(a) for a in expansionPolicy(state, depth, cache)]`).
With `toCache=False` the cache argument passed to the expansion policy is
always `None`, so the successor function does not take a cache argument.
-/

/-- A game as seen by the `Minimax` engine. -/
structure MMGame (S : Type) where
  isTerminal : S → Bool
  evalF : S → Nat → ℚ
  succ : S → Nat → List S

section Minimax

variable {S : Type}

/-- The `for action in actions` loop of `Minimax.maxValue`, parametrised by
the evaluation `f` of a child under the current window (the recursive call
`minValue(state.takeAction(action), depth+1, alpha, beta)`): folds
`value = max(value, f ...)`, and — when `alpha` and `beta` are both truthy
(Python: `if alpha and beta:`; `None` and `0.0` are falsy) — breaks on
`value >= beta` and otherwise updates `alpha = max(alpha, value)`. -/
def goMax (f : S → Option PF → Option PF → PF) : List S → PF → Option PF → Option PF → PF
  | [], v, _, _ => v
  | c :: rest, v, al, be =>
    let v2 := max v (f c al be)
    match al, be with
    | some a, some b =>
      if a.truthy && b.truthy then
        if b ≤ v2 then v2
        else goMax f rest v2 (some (max a v2)) (some b)
      else goMax f rest v2 (some a) (some b)
    | al, be => goMax f rest v2 al be

/-- The `for action in actions` loop of `Minimax.minValue`: breaks on
`value <= alpha`, otherwise updates `beta = min(beta, value)`. -/
def goMin (f : S → Option PF → Option PF → PF) : List S → PF → Option PF → Option PF → PF
  | [], v, _, _ => v
  | c :: rest, v, al, be =>
    let v2 := min v (f c al be)
    match al, be with
    | some a, some b =>
      if a.truthy && b.truthy then
        if v2 ≤ a then v2
        else goMin f rest v2 (some a) (some (min b v2))
      else goMin f rest v2 (some a) (some b)
    | al, be => goMin f rest v2 al be

/-- `Minimax.maxValue` and `Minimax.minValue` with `toCache=False`, as a
pair (maxValue, minValue), by structural recursion on the remaining search
budget `fuel = self.depth - depth` (so `fuel = 0` models the base-case test
`depth == self.depth`; `state.isTerminal()` is the other base case).
`alpha`/`beta` are `None` exactly when `toAlphaBetaPrune` is false. -/
def mmPair (G : MMGame S) : Nat →
    ((S → Nat → Option PF → Option PF → PF) × (S → Nat → Option PF → Option PF → PF))
  | 0 => (fun s d _ _ => PF.fin (G.evalF s d), fun s d _ _ => PF.fin (G.evalF s d))
  | fuel+1 =>
    ( fun s d al be =>
        if G.isTerminal s then PF.fin (G.evalF s d)
        else goMax (fun c al2 be2 => (mmPair G fuel).2 c (d+1) al2 be2)
          (G.succ s d) PF.ninf al be,
      fun s d al be =>
        if G.isTerminal s then PF.fin (G.evalF s d)
        else goMin (fun c al2 be2 => (mmPair G fuel).1 c (d+1) al2 be2)
          (G.succ s d) PF.pinf al be )

/-- `Minimax.maxValue(state, depth, alpha, beta)` with `toCache=False`. -/
def maxV (G : MMGame S) (fuel : Nat) (s : S) (d : Nat) (al be : Option PF) : PF :=
  (mmPair G fuel).1 s d al be

/-- `Minimax.minValue(state, depth, alpha, beta)` with `toCache=False`. -/
def minV (G : MMGame S) (fuel : Nat) (s : S) (d : Nat) (al be : Option PF) : PF :=
  (mmPair G fuel).2 s d al be

theorem maxV_zero (G : MMGame S) (s : S) (d : Nat) (al be : Option PF) :
    maxV G 0 s d al be = PF.fin (G.evalF s d) := rfl

theorem minV_zero (G : MMGame S) (s : S) (d : Nat) (al be : Option PF) :
    minV G 0 s d al be = PF.fin (G.evalF s d) := rfl

theorem maxV_succ (G : MMGame S) (fuel : Nat) (s : S) (d : Nat) (al be : Option PF) :
    maxV G (fuel+1) s d al be =
      if G.isTerminal s then PF.fin (G.evalF s d)
      else goMax (fun c al2 be2 => minV G fuel c (d+1) al2 be2) (G.succ s d) PF.ninf al be := rfl

theorem minV_succ (G : MMGame S) (fuel : Nat) (s : S) (d : Nat) (al be : Option PF) :
    minV G (fuel+1) s d al be =
      if G.isTerminal s then PF.fin (G.evalF s d)
      else goMin (fun c al2 be2 => maxV G fuel c (d+1) al2 be2) (G.succ s d) PF.pinf al be := rfl

/-- The root loop of `Minimax.search`: over the root successors, compute
`tempValue = minValue(state.takeAction(action), 1, rootAlpha, rootBeta)`,
fold `value = max(value, tempValue)` and — Python truthiness again —
`if rootAlpha: rootAlpha = max(rootAlpha, value)`.  Returns the final
`value`, i.e. the game value of the action `Minimax.search` returns
(the first action attaining it). -/
def rootGo (G : MMGame S) (fuel : Nat) : List S → PF → Option PF → Option PF → PF
  | [], v, _, _ => v
  | c :: rest, v, al, be =>
    let v2 := max v (minV G fuel c 1 al be)
    let al2 := match al with
      | some a => if a.truthy then some (max a v2) else some a
      | none => none
    rootGo G fuel rest v2 al2 be

/-- The root value computed by `Minimax.search(state)` for an engine
configured with depth `D`, `toCache=False` and the given pruning flag:
`rootAlpha, rootBeta` are `(-inf, inf)` when pruning and `None` otherwise. -/
def searchValue (G : MMGame S) (D : Nat) (s : S) (prune : Bool) : PF :=
  if prune then
    rootGo G (D - 1) (G.succ s 0) PF.ninf (some PF.ninf) (some PF.pinf)
  else
    rootGo G (D - 1) (G.succ s 0) PF.ninf none none

theorem goMax_nil (f : S → Option PF → Option PF → PF) (v : PF) (al be : Option PF) :
    goMax f [] v al be = v := rfl

theorem goMax_cons_none (f : S → Option PF → Option PF → PF) (c : S) (rest : List S) (v : PF) :
    goMax f (c :: rest) v none none = goMax f rest (max v (f c none none)) none none := rfl

theorem goMax_cons_some (f : S → Option PF → Option PF → PF) (c : S) (rest : List S)
    (v a b : PF) :
    goMax f (c :: rest) v (some a) (some b) =
      if a.truthy && b.truthy then
        if b ≤ max v (f c (some a) (some b)) then max v (f c (some a) (some b))
        else goMax f rest (max v (f c (some a) (some b)))
          (some (max a (max v (f c (some a) (some b))))) (some b)
      else goMax f rest (max v (f c (some a) (some b))) (some a) (some b) := rfl

theorem goMin_nil (f : S → Option PF → Option PF → PF) (v : PF) (al be : Option PF) :
    goMin f [] v al be = v := rfl

theorem goMin_cons_none (f : S → Option PF → Option PF → PF) (c : S) (rest : List S) (v : PF) :
    goMin f (c :: rest) v none none = goMin f rest (min v (f c none none)) none none := rfl

theorem goMin_cons_some (f : S → Option PF → Option PF → PF) (c : S) (rest : List S)
    (v a b : PF) :
    goMin f (c :: rest) v (some a) (some b) =
      if a.truthy && b.truthy then
        if min v (f c (some a) (some b)) ≤ a then min v (f c (some a) (some b))
        else goMin f rest (min v (f c (some a) (some b))) (some a)
          (some (min b (min v (f c (some a) (some b)))))
      else goMin f rest (min v (f c (some a) (some b))) (some a) (some b) := rfl

theorem le_goMax_none (f : S → Option PF → Option PF → PF) :
    ∀ (cs : List S) (v : PF), v ≤ goMax f cs v none none := by
  intro cs
  induction cs with
  | nil => intro v; exact le_rfl
  | cons c rest ih =>
      intro v
      rw [goMax_cons_none]
      exact (le_max_left _ _).trans (ih _)

theorem goMin_none_le (f : S → Option PF → Option PF → PF) :
    ∀ (cs : List S) (v : PF), goMin f cs v none none ≤ v := by
  intro cs
  induction cs with
  | nil => intro v; exact le_rfl
  | cons c rest ih =>
      intro v
      rw [goMin_cons_none]
      exact (ih _).trans (min_le_left _ _)

/-- The fail-soft alpha-beta relation between the value `g` computed under
the window `(a, b)` and the plain (window-less) value `v` of the same
position: if `g` fails low it is an upper bound on `v`, if it fails high it
is a lower bound on `v`, and inside the window it is exact. -/
def ABRel (g v a b : PF) : Prop :=
  (g ≤ a → v ≤ g) ∧ (b ≤ g → g ≤ v) ∧ (a < g → g < b → g = v)

theorem ABRel_refl (g a b : PF) : ABRel g g a b :=
  ⟨fun _ => le_rfl, fun _ => le_rfl, fun _ _ => rfl⟩

/-- One step of the maximiser's loop preserves `ABRel` between the running
pruned accumulator and the running plain accumulator. -/
theorem ABRel_step_max {a b a' v vp g vc : PF} (_hab : a < b) (haa' : a ≤ a')
    (hbound : a' ≤ max a v) (hQ : ABRel v vp a b) (hQc : ABRel g vc a' b) :
    ABRel (max v g) (max vp vc) a b := by
  obtain ⟨hQ1, hQ2, hQ3⟩ := hQ
  obtain ⟨hc1, hc2, hc3⟩ := hQc
  refine ⟨?_, ?_, ?_⟩
  · intro h
    have hv : v ≤ a := le_trans (le_max_left _ _) h
    have hg : g ≤ a' := le_trans (le_max_right _ _) (h.trans haa')
    exact max_le ((hQ1 hv).trans (le_max_left _ _)) ((hc1 hg).trans (le_max_right _ _))
  · intro h
    rcases le_total g v with hgv | hvg
    · rw [max_eq_left hgv] at h ⊢
      exact (hQ2 h).trans (le_max_left _ _)
    · rw [max_eq_right hvg] at h ⊢
      exact (hc2 h).trans (le_max_right _ _)
  · intro h1 h2
    apply le_antisymm
    · rcases le_total g v with hgv | hvg
      · rw [max_eq_left hgv] at h1 h2 ⊢
        rw [hQ3 h1 h2]
        exact le_max_left _ _
      · rw [max_eq_right hvg] at h1 h2 ⊢
        rcases le_or_lt g a' with hga' | ha'g
        · have hgav : g ≤ max a v := hga'.trans hbound
          have hgv2 : g ≤ v := by
            rcases le_total a v with hav | hva
            · rwa [max_eq_right hav] at hgav
            · rw [max_eq_left hva] at hgav
              exact absurd h1 (not_lt.mpr hgav)
          have hveq : v = g := le_antisymm hvg hgv2
          rw [← hveq] at h1 h2 ⊢
          rw [hQ3 h1 h2]
          exact le_max_left _ _
        · rw [hc3 ha'g h2]
          exact le_max_right _ _
    · apply max_le
      · rcases le_or_lt v a with hva | hav
        · exact (hQ1 hva).trans (le_max_left _ _)
        · have hvb : v < b := lt_of_le_of_lt (le_max_left _ _) h2
          rw [← hQ3 hav hvb]
          exact le_max_left _ _
      · rcases le_or_lt g a' with hga' | ha'g
        · exact (hc1 hga').trans (le_max_right _ _)
        · have hgb : g < b := lt_of_le_of_lt (le_max_right _ _) h2
          rw [← hc3 ha'g hgb]
          exact le_max_right _ _

/-- One step of the minimiser's loop preserves `ABRel`. -/
theorem ABRel_step_min {a b b' v vp g vc : PF} (_hab : a < b) (hb'b : b' ≤ b)
    (hbound : min b v ≤ b') (hQ : ABRel v vp a b) (hQc : ABRel g vc a b') :
    ABRel (min v g) (min vp vc) a b := by
  obtain ⟨hQ1, hQ2, hQ3⟩ := hQ
  obtain ⟨hc1, hc2, hc3⟩ := hQc
  refine ⟨?_, ?_, ?_⟩
  · intro h
    rcases le_total v g with hvg | hgv
    · rw [min_eq_left hvg] at h ⊢
      exact (min_le_left _ _).trans (hQ1 h)
    · rw [min_eq_right hgv] at h ⊢
      exact (min_le_right _ _).trans (hc1 h)
  · intro h
    have hbv : b ≤ v := le_trans h (min_le_left _ _)
    have hbg : b ≤ g := le_trans h (min_le_right _ _)
    refine le_min ?_ ?_
    · exact (min_le_left v g).trans (hQ2 hbv)
    · exact (min_le_right v g).trans (hc2 (hb'b.trans hbg))
  · intro h1 h2
    apply le_antisymm
    · refine le_min ?_ ?_
      · rcases le_or_lt b v with hbv | hvb
        · exact (min_le_left _ _).trans (hQ2 hbv)
        · have hav : a < v := lt_of_lt_of_le h1 (min_le_left _ _)
          rw [← hQ3 hav hvb]
          exact min_le_left _ _
      · rcases le_or_lt b' g with hb'g | hgb'
        · exact (min_le_right _ _).trans (hc2 hb'g)
        · have hag : a < g := lt_of_lt_of_le h1 (min_le_right _ _)
          rw [← hc3 hag hgb']
          exact min_le_right _ _
    · rcases le_total v g with hvg | hgv
      · rw [min_eq_left hvg] at h1 h2 ⊢
        rw [← hQ3 h1 h2]
        exact min_le_left _ _
      · rw [min_eq_right hgv] at h1 h2 ⊢
        rcases le_or_lt b' g with hb'g | hgb'
        · have hminv : min b v = v := by
            rcases le_total b v with hbv | hvb
            · rw [min_eq_left hbv] at hbound
              exact absurd (lt_of_le_of_lt (hbound.trans hb'g) h2) (lt_irrefl b)
            · exact min_eq_right hvb
          have hvg2 : v ≤ g := by
            rw [hminv] at hbound
            exact hbound.trans hb'g
          have hgeq : g = v := le_antisymm hgv hvg2
          rw [hgeq] at h1 h2 ⊢
          rw [← hQ3 h1 h2]
          exact min_le_left _ _
        · rw [← hc3 h1 hgb']
          exact min_le_right _ _

/-- The maximiser's loop, run under a live window `(a', b)` reached from an
original window `(a, b)`, is `ABRel`-related to the plain loop. -/
theorem goMax_sound {f : S → Option PF → Option PF → PF} {a b : PF} (hab : a < b)
    (hf : ∀ c a' b', a' < b' → ABRel (f c (some a') (some b')) (f c none none) a' b') :
    ∀ (cs : List S) (v vp a' : PF), a ≤ a' → a' < b → a' ≤ max a v → ABRel v vp a b →
      ABRel (goMax f cs v (some a') (some b)) (goMax f cs vp none none) a b := by
  intro cs
  induction cs with
  | nil =>
      intro v vp a' _ _ _ hQ
      exact hQ
  | cons c rest ih =>
      intro v vp a' haa' ha'b hbound hQ
      have hQc := hf c a' b ha'b
      have hstep := ABRel_step_max hab haa' hbound hQ hQc
      rw [goMax_cons_some, goMax_cons_none]
      by_cases htr : (a'.truthy && b.truthy) = true
      · rw [if_pos htr]
        by_cases hbr : b ≤ max v (f c (some a') (some b))
        · rw [if_pos hbr]
          refine ⟨?_, ?_, ?_⟩
          · intro hle
            exact absurd (lt_of_lt_of_le hab (hbr.trans hle)) (lt_irrefl a)
          · intro _
            exact (hstep.2.1 hbr).trans (le_goMax_none f rest _)
          · intro _ hlt
            exact absurd hbr (not_le.mpr hlt)
        · rw [if_neg hbr]
          apply ih
          · exact haa'.trans (le_max_left _ _)
          · exact max_lt ha'b (not_le.mp hbr)
          · exact max_le (hbound.trans (max_le_max le_rfl (le_max_left _ _))) (le_max_right _ _)
          · exact hstep
      · rw [if_neg htr]
        apply ih
        · exact haa'
        · exact ha'b
        · exact hbound.trans (max_le_max le_rfl (le_max_left _ _))
        · exact hstep

/-- The minimiser's loop, run under a live window `(a, b')` reached from an
original window `(a, b)`, is `ABRel`-related to the plain loop. -/
theorem goMin_sound {f : S → Option PF → Option PF → PF} {a b : PF} (hab : a < b)
    (hf : ∀ c a' b', a' < b' → ABRel (f c (some a') (some b')) (f c none none) a' b') :
    ∀ (cs : List S) (v vp b' : PF), b' ≤ b → a < b' → min b v ≤ b' → ABRel v vp a b →
      ABRel (goMin f cs v (some a) (some b')) (goMin f cs vp none none) a b := by
  intro cs
  induction cs with
  | nil =>
      intro v vp b' _ _ _ hQ
      exact hQ
  | cons c rest ih =>
      intro v vp b' hb'b hab' hbound hQ
      have hQc := hf c a b' hab'
      have hstep := ABRel_step_min hab hb'b hbound hQ hQc
      rw [goMin_cons_some, goMin_cons_none]
      by_cases htr : (a.truthy && b'.truthy) = true
      · rw [if_pos htr]
        by_cases hbr : min v (f c (some a) (some b')) ≤ a
        · rw [if_pos hbr]
          refine ⟨?_, ?_, ?_⟩
          · intro _
            exact (goMin_none_le f rest _).trans (hstep.1 hbr)
          · intro hge
            exact absurd (lt_of_lt_of_le hab (hge.trans hbr)) (lt_irrefl a)
          · intro hlt _
            exact absurd hbr (not_le.mpr hlt)
        · rw [if_neg hbr]
          apply ih
          · exact (min_le_left _ _).trans hb'b
          · exact lt_min hab' (not_le.mp hbr)
          · exact le_min ((min_le_min le_rfl (min_le_left _ _)).trans hbound) (min_le_right _ _)
          · exact hstep
      · rw [if_neg htr]
        apply ih
        · exact hb'b
        · exact hab'
        · exact (min_le_min le_rfl (min_le_left _ _)).trans hbound
        · exact hstep

/-- Fail-soft alpha-beta correctness of the engine's `maxValue`/`minValue`
(cache disabled): the pruned value and the plain value of every position
stand in the `ABRel` relation. -/
theorem mm_sound (G : MMGame S) : ∀ fuel : Nat,
    (∀ (s : S) (d : Nat) (a b : PF), a < b →
      ABRel (maxV G fuel s d (some a) (some b)) (maxV G fuel s d none none) a b) ∧
    (∀ (s : S) (d : Nat) (a b : PF), a < b →
      ABRel (minV G fuel s d (some a) (some b)) (minV G fuel s d none none) a b) := by
  intro fuel
  induction fuel with
  | zero => exact ⟨fun s d a b _ => ABRel_refl _ _ _, fun s d a b _ => ABRel_refl _ _ _⟩
  | succ fuel ih =>
      constructor
      · intro s d a b hab
        rw [maxV_succ, maxV_succ]
        by_cases ht : G.isTerminal s
        · rw [if_pos ht, if_pos ht]
          exact ABRel_refl _ _ _
        · rw [if_neg ht, if_neg ht]
          exact goMax_sound hab (fun c a' b' h => ih.2 c (d+1) a' b' h)
            (G.succ s d) PF.ninf PF.ninf a le_rfl hab (le_max_left _ _) (ABRel_refl _ _ _)
      · intro s d a b hab
        rw [minV_succ, minV_succ]
        by_cases ht : G.isTerminal s
        · rw [if_pos ht, if_pos ht]
          exact ABRel_refl _ _ _
        · rw [if_neg ht, if_neg ht]
          exact goMin_sound hab (fun c a' b' h => ih.1 c (d+1) a' b' h)
            (G.succ s d) PF.pinf PF.pinf b le_rfl hab (min_le_left _ _) (ABRel_refl _ _ _)

theorem rootGo_nil (G : MMGame S) (fuel : Nat) (v : PF) (al be : Option PF) :
    rootGo G fuel [] v al be = v := rfl

theorem rootGo_cons_some (G : MMGame S) (fuel : Nat) (c : S) (rest : List S)
    (v a : PF) (be : Option PF) :
    rootGo G fuel (c :: rest) v (some a) be =
      rootGo G fuel rest (max v (minV G fuel c 1 (some a) be))
        (if a.truthy then some (max a (max v (minV G fuel c 1 (some a) be))) else some a) be := rfl

theorem rootGo_cons_none (G : MMGame S) (fuel : Nat) (c : S) (rest : List S)
    (v : PF) (be : Option PF) :
    rootGo G fuel (c :: rest) v none be =
      rootGo G fuel rest (max v (minV G fuel c 1 none be)) none be := rfl

/-- The root loop of `Minimax.search` with the pruning window `(-inf, inf)`
computes the same running maximum as the plain root loop. -/
theorem rootGo_prune_eq (G : MMGame S) (fuel : Nat) :
    ∀ (cs : List S) (v a' : PF), a' ≤ v →
      rootGo G fuel cs v (some a') (some PF.pinf) = rootGo G fuel cs v none none := by
  intro cs
  induction cs with
  | nil => intro v a' _; rfl
  | cons c rest ih =>
      intro v a' hav
      rw [rootGo_cons_some, rootGo_cons_none]
      rcases eq_or_lt_of_le (PF.le_pinf a') with hpe | hplt
      · -- a' = +inf forces v = +inf, and everything stays +inf
        have hv : v = PF.pinf := le_antisymm (PF.le_pinf v) (hpe ▸ hav)
        have hmax1 : max v (minV G fuel c 1 (some a') (some PF.pinf)) = PF.pinf := by
          rw [hv]; exact max_eq_left (PF.le_pinf _)
        have hmax2 : max v (minV G fuel c 1 none none) = PF.pinf := by
          rw [hv]; exact max_eq_left (PF.le_pinf _)
        rw [hmax1, hmax2]
        have htr : a'.truthy = true := by rw [hpe]; exact PF.truthy_pinf
        rw [if_pos htr]
        have : max a' PF.pinf = PF.pinf := max_eq_right (PF.le_pinf _)
        rw [this]
        exact ih PF.pinf PF.pinf le_rfl
      · have hQ := (mm_sound G fuel).2 c 1 a' PF.pinf hplt
        have hkey : max v (minV G fuel c 1 (some a') (some PF.pinf))
            = max v (minV G fuel c 1 none none) := by
          rcases le_or_lt (minV G fuel c 1 (some a') (some PF.pinf)) a' with hga' | ha'g
          · have hvc := hQ.1 hga'
            rw [max_eq_left (hga'.trans hav), max_eq_left ((hvc.trans hga').trans hav)]
          · rcases eq_or_lt_of_le (PF.le_pinf (minV G fuel c 1 (some a') (some PF.pinf)))
              with hge | hglt
            · have hvc := hQ.2.1 (le_of_eq hge.symm)
              have : minV G fuel c 1 none none = PF.pinf :=
                le_antisymm (PF.le_pinf _) (hge ▸ hvc)
              rw [hge, this]
            · rw [hQ.2.2 ha'g hglt]
        rw [hkey]
        by_cases htr : a'.truthy = true
        · rw [if_pos htr]
          apply ih
          exact max_le (hav.trans (le_max_left _ _)) le_rfl
        · rw [if_neg htr]
          apply ih
          exact hav.trans (le_max_left _ _)

/-- **C1.** For every game, state and configured depth (≥ 1, the regime in
which the fuel-based embedding models the Python recursion), `Minimax.search`
with the cache disabled computes the same maximum root value with
`toAlphaBetaPrune=True` as with `toAlphaBetaPrune=False`: the game value
attained by the returned action is identical in both runs. -/
theorem C1_pruning_preserves_root_value (G : MMGame S) (D : Nat) (s : S) (hD : 1 ≤ D) :
    searchValue G D s true = searchValue G D s false := by
  unfold searchValue
  rw [if_pos rfl, if_neg Bool.false_ne_true]
  exact rootGo_prune_eq G (D - 1) (G.succ s 0) PF.ninf PF.ninf le_rfl

end Minimax

/-!
## Minimax with the transposition cache (`toCache=True`)

The Python cache is a dict keyed by `(state, depth)` whose entries are pairs
`(flag, value)` with flag one of the strings `"__eq__"`, `"__leq__"`,
`"__geq__"` (the `Exact` / `UpperBound` / `LowerBound` tags of the spec).
It is modelled as an association list with dict update semantics.
-/

/-- The cache entry tag: `"__eq__"`, `"__leq__"` (actual value ≤ stored) or
`"__geq__"` (actual value ≥ stored). -/
inductive CFlag where
  | eqF | leqF | geqF
deriving DecidableEq, Repr

/-- The Minimax transposition cache: `{(state, depth): (flag, value)}`. -/
abbrev Cache (S : Type) : Type := List ((S × Nat) × (CFlag × PF))

section MinimaxCache

variable {S : Type} [DecidableEq S]

/-- Dict membership/lookup: `self.cache[(state, depth)]`. -/
def cacheFind : Cache S → S × Nat → Option (CFlag × PF)
  | [], _ => none
  | (k, e) :: rest, key => if k = key then some e else cacheFind rest key

/-- Dict assignment: `self.cache[(state, depth)] = entry`. -/
def cacheStore : Cache S → S × Nat → CFlag × PF → Cache S
  | [], key, e => [(key, e)]
  | (k, e0) :: rest, key, e =>
    if k = key then (key, e) :: rest else (k, e0) :: cacheStore rest key e

theorem cacheFind_store (cache : Cache S) (k k' : S × Nat) (e : CFlag × PF) :
    cacheFind (cacheStore cache k e) k' = if k = k' then some e else cacheFind cache k' := by
  induction cache with
  | nil =>
      by_cases h : k = k'
      · simp [cacheStore, cacheFind, h]
      · simp [cacheStore, cacheFind, h]
  | cons p rest ih =>
      obtain ⟨k0, e0⟩ := p
      by_cases h0 : k0 = k
      · subst h0
        by_cases h : k0 = k'
        · simp [cacheStore, cacheFind, h]
        · simp [cacheStore, cacheFind, h]
      · by_cases h : k0 = k'
        · subst h
          have hkk : ¬ k = k0 := fun he => h0 he.symm
          simp [cacheStore, cacheFind, h0, hkk]
        · simp [cacheStore, cacheFind, h0, h, ih]

/-- `Minimax.readCache(state, depth, alpha, beta)` (lines 126–161 of
`minimax.py`): returns the triple `(alpha, beta, value)`.  Python
truthiness is explicit: `if not alpha or not beta` is true when either
window bound is `None` **or equals `0.0`**. -/
def readCache (cache : Cache S) (s : S) (d : Nat) (al be : Option PF) :
    Option PF × Option PF × Option PF :=
  if PF.otruthy al = false ∨ PF.otruthy be = false then
    match cacheFind cache (s, d) with
    | some (_, v) => (al, be, some v)
    | none => (al, be, none)
  else
    match al, be, cacheFind cache (s, d) with
    | al, be, none => (al, be, none)
    | al, be, some (CFlag.eqF, v) => (al, be, some v)
    | some a, some b, some (CFlag.leqF, v) =>
      if v ≤ a then (some a, some b, some v)
      else if a < v ∧ v < b then (some a, some v, none)
      else (some a, some b, none)
    | some a, some b, some (CFlag.geqF, v) =>
      if b ≤ v then (some a, some b, some v)
      else if a < v ∧ v < b then (some v, some b, none)
      else (some a, some b, none)
    | al, be, some _ => (al, be, none)

/-- `Minimax.storeCache(state, depth, alpha, beta, value)` (lines 99–124):
classifies `value` as `__eq__` / `__leq__` / `__geq__` and writes it.  The
`if not alpha or not beta` test again treats `0.0` like `None`. -/
def storeCache (cache : Cache S) (s : S) (d : Nat) (al be : Option PF) (v : PF) : Cache S :=
  if PF.otruthy al = false ∨ PF.otruthy be = false then
    cacheStore cache (s, d) (CFlag.eqF, v)
  else
    match al, be with
    | some a, some b =>
      if v ≤ a then cacheStore cache (s, d) (CFlag.leqF, v)
      else if a < v ∧ v < b then cacheStore cache (s, d) (CFlag.eqF, v)
      else if b ≤ v then cacheStore cache (s, d) (CFlag.geqF, v)
      else cache
    | _, _ => cache

theorem readCache_eq (cache : Cache S) (s : S) (d : Nat) (al be : Option PF) :
    readCache cache s d al be =
      if PF.otruthy al = false ∨ PF.otruthy be = false then
        match cacheFind cache (s, d) with
        | some (_, v) => (al, be, some v)
        | none => (al, be, none)
      else
        match al, be, cacheFind cache (s, d) with
        | al, be, none => (al, be, none)
        | al, be, some (CFlag.eqF, v) => (al, be, some v)
        | some a, some b, some (CFlag.leqF, v) =>
          if v ≤ a then (some a, some b, some v)
          else if a < v ∧ v < b then (some a, some v, none)
          else (some a, some b, none)
        | some a, some b, some (CFlag.geqF, v) =>
          if b ≤ v then (some a, some b, some v)
          else if a < v ∧ v < b then (some v, some b, none)
          else (some a, some b, none)
        | al, be, some _ => (al, be, none) := rfl

theorem storeCache_eq (cache : Cache S) (s : S) (d : Nat) (al be : Option PF) (v : PF) :
    storeCache cache s d al be v =
      if PF.otruthy al = false ∨ PF.otruthy be = false then
        cacheStore cache (s, d) (CFlag.eqF, v)
      else
        match al, be with
        | some a, some b =>
          if v ≤ a then cacheStore cache (s, d) (CFlag.leqF, v)
          else if a < v ∧ v < b then cacheStore cache (s, d) (CFlag.eqF, v)
          else if b ≤ v then cacheStore cache (s, d) (CFlag.geqF, v)
          else cache
        | _, _ => cache := rfl

/-- The maximiser's loop with the cache threaded through the recursive
calls (the cache is engine state mutated in place in Python). -/
def goMaxC (f : S → Option PF → Option PF → Cache S → PF × Cache S) :
    List S → PF → Option PF → Option PF → Cache S → PF × Cache S
  | [], v, _, _, cache => (v, cache)
  | c :: rest, v, al, be, cache =>
    let r := f c al be cache
    let v2 := max v r.1
    match al, be with
    | some a, some b =>
      if a.truthy && b.truthy then
        if b ≤ v2 then (v2, r.2)
        else goMaxC f rest v2 (some (max a v2)) (some b) r.2
      else goMaxC f rest v2 (some a) (some b) r.2
    | al, be => goMaxC f rest v2 al be r.2

/-- The minimiser's loop with the cache threaded through. -/
def goMinC (f : S → Option PF → Option PF → Cache S → PF × Cache S) :
    List S → PF → Option PF → Option PF → Cache S → PF × Cache S
  | [], v, _, _, cache => (v, cache)
  | c :: rest, v, al, be, cache =>
    let r := f c al be cache
    let v2 := min v r.1
    match al, be with
    | some a, some b =>
      if a.truthy && b.truthy then
        if v2 ≤ a then (v2, r.2)
        else goMinC f rest v2 (some a) (some (min b v2)) r.2
      else goMinC f rest v2 (some a) (some b) r.2
    | al, be => goMinC f rest v2 al be r.2

/-- Run the loop then `storeCache` the fresh value under the post-read
window (`alphaCopy, betaCopy` in the Python). -/
def loopStoreMax (f : S → Option PF → Option PF → Cache S → PF × Cache S)
    (cs : List S) (s : S) (d : Nat) (al be : Option PF) (cache : Cache S) : PF × Cache S :=
  let lr := goMaxC f cs PF.ninf al be cache
  (lr.1, storeCache lr.2 s d al be lr.1)

def loopStoreMin (f : S → Option PF → Option PF → Cache S → PF × Cache S)
    (cs : List S) (s : S) (d : Nat) (al be : Option PF) (cache : Cache S) : PF × Cache S :=
  let lr := goMinC f cs PF.pinf al be cache
  (lr.1, storeCache lr.2 s d al be lr.1)

/-- `Minimax.maxValue`/`minValue` with `toCache=True`, as a fuel-indexed
pair.  After the base-case test, `readCache` may tighten the window or
short-circuit; the Python `if value: return value` means a cached value is
only returned when it is truthy (nonzero). -/
def mmPairC (G : MMGame S) : Nat →
    ((S → Nat → Option PF → Option PF → Cache S → PF × Cache S) ×
     (S → Nat → Option PF → Option PF → Cache S → PF × Cache S))
  | 0 => (fun s d _ _ cache => (PF.fin (G.evalF s d), cache),
          fun s d _ _ cache => (PF.fin (G.evalF s d), cache))
  | fuel+1 =>
    ( fun s d al be cache =>
        if G.isTerminal s then (PF.fin (G.evalF s d), cache)
        else
          let rc := readCache cache s d al be
          match rc.2.2 with
          | some v =>
            if v.truthy then (v, cache)
            else loopStoreMax (fun c al2 be2 ch => (mmPairC G fuel).2 c (d+1) al2 be2 ch)
              (G.succ s d) s d rc.1 rc.2.1 cache
          | none => loopStoreMax (fun c al2 be2 ch => (mmPairC G fuel).2 c (d+1) al2 be2 ch)
              (G.succ s d) s d rc.1 rc.2.1 cache,
      fun s d al be cache =>
        if G.isTerminal s then (PF.fin (G.evalF s d), cache)
        else
          let rc := readCache cache s d al be
          match rc.2.2 with
          | some v =>
            if v.truthy then (v, cache)
            else loopStoreMin (fun c al2 be2 ch => (mmPairC G fuel).1 c (d+1) al2 be2 ch)
              (G.succ s d) s d rc.1 rc.2.1 cache
          | none => loopStoreMin (fun c al2 be2 ch => (mmPairC G fuel).1 c (d+1) al2 be2 ch)
              (G.succ s d) s d rc.1 rc.2.1 cache )

/-- `Minimax.maxValue(state, depth, alpha, beta)` with `toCache=True`. -/
def maxVC (G : MMGame S) (fuel : Nat) (s : S) (d : Nat) (al be : Option PF)
    (cache : Cache S) : PF × Cache S :=
  (mmPairC G fuel).1 s d al be cache

/-- `Minimax.minValue(state, depth, alpha, beta)` with `toCache=True`. -/
def minVC (G : MMGame S) (fuel : Nat) (s : S) (d : Nat) (al be : Option PF)
    (cache : Cache S) : PF × Cache S :=
  (mmPairC G fuel).2 s d al be cache

theorem maxVC_succ (G : MMGame S) (fuel : Nat) (s : S) (d : Nat) (al be : Option PF)
    (cache : Cache S) :
    maxVC G (fuel+1) s d al be cache =
      if G.isTerminal s then (PF.fin (G.evalF s d), cache)
      else
        let rc := readCache cache s d al be
        match rc.2.2 with
        | some v =>
          if v.truthy then (v, cache)
          else loopStoreMax (fun c al2 be2 ch => minVC G fuel c (d+1) al2 be2 ch)
            (G.succ s d) s d rc.1 rc.2.1 cache
        | none => loopStoreMax (fun c al2 be2 ch => minVC G fuel c (d+1) al2 be2 ch)
            (G.succ s d) s d rc.1 rc.2.1 cache := rfl

theorem minVC_succ (G : MMGame S) (fuel : Nat) (s : S) (d : Nat) (al be : Option PF)
    (cache : Cache S) :
    minVC G (fuel+1) s d al be cache =
      if G.isTerminal s then (PF.fin (G.evalF s d), cache)
      else
        let rc := readCache cache s d al be
        match rc.2.2 with
        | some v =>
          if v.truthy then (v, cache)
          else loopStoreMin (fun c al2 be2 ch => maxVC G fuel c (d+1) al2 be2 ch)
            (G.succ s d) s d rc.1 rc.2.1 cache
        | none => loopStoreMin (fun c al2 be2 ch => maxVC G fuel c (d+1) al2 be2 ch)
            (G.succ s d) s d rc.1 rc.2.1 cache := rfl

/-- The root loop of `Minimax.search` with `toCache=True`. -/
def rootGoC (G : MMGame S) (fuel : Nat) :
    List S → PF → Option PF → Option PF → Cache S → PF × Cache S
  | [], v, _, _, cache => (v, cache)
  | c :: rest, v, al, be, cache =>
    let r := minVC G fuel c 1 al be cache
    let v2 := max v r.1
    let al2 := match al with
      | some a => if a.truthy then some (max a v2) else some a
      | none => none
    rootGoC G fuel rest v2 al2 be r.2

/-- The root value computed by `Minimax.search(state, resetCache=True)` for
an engine with depth `D` and `toCache=True` (the cache starts empty on
every such call because `resetCache` re-creates it). -/
def searchCValue (G : MMGame S) (D : Nat) (s : S) (prune : Bool) : PF :=
  if prune then
    (rootGoC G (D - 1) (G.succ s 0) PF.ninf (some PF.ninf) (some PF.pinf) []).1
  else
    (rootGoC G (D - 1) (G.succ s 0) PF.ninf none none []).1

end MinimaxCache

/-!
## A concrete game refuting the cache/no-cache equivalence (claim C2)

A four-level game with a transposition: state `11` is reachable at depth 2
both under root child `1` and under root child `2`.  Exploring child `1`
stores a `__geq__` bound for `(11, 2)` after a beta cutoff and drives the
root alpha to the float `0.0`; exploring child `2` then reaches state `11`
with `alpha = 0.0`, which Python's `if not alpha or not beta:` treats like
"no window", so the stored *bound* `7` is returned as if it were the exact
value (`9`). -/
def cexG : MMGame Nat where
  isTerminal := fun _ => false
  evalF := fun s _ => if s = 20 then 5 else if s = 21 then 7 else if s = 22 then 9 else 0
  succ := fun s _ =>
    if s = 0 then [1, 2]
    else if s = 1 then [10, 11, 12]
    else if s = 2 then [11]
    else if s = 10 then [20]
    else if s = 11 then [21, 22]
    else if s = 12 then [23]
    else []

example : searchCValue cexG 3 0 true = PF.fin 7 := by decide
example : searchValue cexG 3 0 true = PF.fin 9 := by decide
example : searchValue cexG 3 0 false = PF.fin 9 := by decide

/-!
## Soundness of the cache when pruning is disabled

With `toAlphaBetaPrune=False` every window bound is `None`, `readCache`
returns any cached value unchanged and `storeCache` always stores `__eq__`
entries.  The invariant: every cache entry holds the plain (window-less)
value of its `(state, depth)` key — `minValue`'s value at odd depths,
`maxValue`'s at even depths (the recursion alternates strictly). -/

section MinimaxCacheSound

variable {S : Type} [DecidableEq S]

/-- Every entry of the cache is the plain value of its key. -/
def CacheOK (G : MMGame S) (D : Nat) (cache : Cache S) : Prop :=
  ∀ (s : S) (d : Nat) (fl : CFlag) (v : PF), cacheFind cache (s, d) = some (fl, v) →
    v = if d % 2 = 1 then minV G (D - d) s d none none else maxV G (D - d) s d none none

theorem cacheOK_nil (G : MMGame S) (D : Nat) : CacheOK G D [] := by
  intro s d fl v h
  simp [cacheFind] at h

theorem cacheOK_store_none {G : MMGame S} {D : Nat} {cache : Cache S}
    (h : CacheOK G D cache) (s : S) (d : Nat) (v : PF)
    (hv : v = if d % 2 = 1 then minV G (D - d) s d none none
      else maxV G (D - d) s d none none) :
    CacheOK G D (storeCache cache s d none none v) := by
  intro s' d' fl' v' hfind
  have hsc : storeCache cache s d none none v = cacheStore cache (s, d) (CFlag.eqF, v) := by
    simp [storeCache, PF.otruthy]
  rw [hsc, cacheFind_store] at hfind
  by_cases hk : (s, d) = (s', d')
  · rw [if_pos hk] at hfind
    obtain ⟨hs, hd⟩ := Prod.mk.injEq .. ▸ hk
    cases hfind
    rw [← hs, ← hd]
    exact hv
  · rw [if_neg hk] at hfind
    exact h s' d' fl' v' hfind

theorem maxVC_zero (G : MMGame S) (s : S) (d : Nat) (al be : Option PF) (cache : Cache S) :
    maxVC G 0 s d al be cache = (PF.fin (G.evalF s d), cache) := rfl

theorem minVC_zero (G : MMGame S) (s : S) (d : Nat) (al be : Option PF) (cache : Cache S) :
    minVC G 0 s d al be cache = (PF.fin (G.evalF s d), cache) := rfl

theorem maxVC_succ_none (G : MMGame S) (fuel : Nat) (s : S) (d : Nat) (cache : Cache S) :
    maxVC G (fuel+1) s d none none cache =
      if G.isTerminal s then (PF.fin (G.evalF s d), cache)
      else
        match cacheFind cache (s, d) with
        | some (_, v) =>
          if v.truthy then (v, cache)
          else loopStoreMax (fun c al2 be2 ch => minVC G fuel c (d+1) al2 be2 ch)
            (G.succ s d) s d none none cache
        | none => loopStoreMax (fun c al2 be2 ch => minVC G fuel c (d+1) al2 be2 ch)
            (G.succ s d) s d none none cache := by
  rw [maxVC_succ]
  cases h : cacheFind cache (s, d) with
  | none => simp [readCache, h, PF.otruthy]
  | some e =>
      obtain ⟨fl, v⟩ := e
      simp [readCache, h, PF.otruthy]

theorem minVC_succ_none (G : MMGame S) (fuel : Nat) (s : S) (d : Nat) (cache : Cache S) :
    minVC G (fuel+1) s d none none cache =
      if G.isTerminal s then (PF.fin (G.evalF s d), cache)
      else
        match cacheFind cache (s, d) with
        | some (_, v) =>
          if v.truthy then (v, cache)
          else loopStoreMin (fun c al2 be2 ch => maxVC G fuel c (d+1) al2 be2 ch)
            (G.succ s d) s d none none cache
        | none => loopStoreMin (fun c al2 be2 ch => maxVC G fuel c (d+1) al2 be2 ch)
            (G.succ s d) s d none none cache := by
  rw [minVC_succ]
  cases h : cacheFind cache (s, d) with
  | none => simp [readCache, h, PF.otruthy]
  | some e =>
      obtain ⟨fl, v⟩ := e
      simp [readCache, h, PF.otruthy]

theorem goMaxC_cons_none (f : S → Option PF → Option PF → Cache S → PF × Cache S)
    (c : S) (rest : List S) (v : PF) (cache : Cache S) :
    goMaxC f (c :: rest) v none none cache =
      goMaxC f rest (max v (f c none none cache).1) none none (f c none none cache).2 := rfl

theorem goMinC_cons_none (f : S → Option PF → Option PF → Cache S → PF × Cache S)
    (c : S) (rest : List S) (v : PF) (cache : Cache S) :
    goMinC f (c :: rest) v none none cache =
      goMinC f rest (min v (f c none none cache).1) none none (f c none none cache).2 := rfl

/-- The cached maximiser's loop under `None` windows computes the plain
loop's value and preserves the cache invariant. -/
theorem goMaxC_nc (G : MMGame S) (D : Nat)
    {f : S → Option PF → Option PF → Cache S → PF × Cache S}
    {g : S → Option PF → Option PF → PF}
    (hfg : ∀ (c : S) (cache : Cache S), CacheOK G D cache →
      (f c none none cache).1 = g c none none ∧ CacheOK G D (f c none none cache).2) :
    ∀ (cs : List S) (v : PF) (cache : Cache S), CacheOK G D cache →
      (goMaxC f cs v none none cache).1 = goMax g cs v none none ∧
      CacheOK G D (goMaxC f cs v none none cache).2 := by
  intro cs
  induction cs with
  | nil => intro v cache hOK; exact ⟨rfl, hOK⟩
  | cons c rest ih =>
      intro v cache hOK
      obtain ⟨hval, hOK2⟩ := hfg c cache hOK
      rw [goMaxC_cons_none, goMax_cons_none, hval]
      exact ih _ _ hOK2

theorem goMinC_nc (G : MMGame S) (D : Nat)
    {f : S → Option PF → Option PF → Cache S → PF × Cache S}
    {g : S → Option PF → Option PF → PF}
    (hfg : ∀ (c : S) (cache : Cache S), CacheOK G D cache →
      (f c none none cache).1 = g c none none ∧ CacheOK G D (f c none none cache).2) :
    ∀ (cs : List S) (v : PF) (cache : Cache S), CacheOK G D cache →
      (goMinC f cs v none none cache).1 = goMin g cs v none none ∧
      CacheOK G D (goMinC f cs v none none cache).2 := by
  intro cs
  induction cs with
  | nil => intro v cache hOK; exact ⟨rfl, hOK⟩
  | cons c rest ih =>
      intro v cache hOK
      obtain ⟨hval, hOK2⟩ := hfg c cache hOK
      rw [goMinC_cons_none, goMin_cons_none, hval]
      exact ih _ _ hOK2

/-- With pruning disabled, `maxValue`/`minValue` with the cache compute
exactly the plain values, and keep every cache entry exact. -/
theorem mmC_nc (G : MMGame S) (D : Nat) : ∀ fuel : Nat,
    (∀ (s : S) (d : Nat) (cache : Cache S), CacheOK G D cache → d % 2 = 0 → fuel = D - d →
      (maxVC G fuel s d none none cache).1 = maxV G fuel s d none none ∧
      CacheOK G D (maxVC G fuel s d none none cache).2) ∧
    (∀ (s : S) (d : Nat) (cache : Cache S), CacheOK G D cache → d % 2 = 1 → fuel = D - d →
      (minVC G fuel s d none none cache).1 = minV G fuel s d none none ∧
      CacheOK G D (minVC G fuel s d none none cache).2) := by
  intro fuel
  induction fuel with
  | zero =>
      constructor
      · intro s d cache hOK _ _
        rw [maxVC_zero, maxV_zero]
        exact ⟨rfl, hOK⟩
      · intro s d cache hOK _ _
        rw [minVC_zero, minV_zero]
        exact ⟨rfl, hOK⟩
  | succ fuel ih =>
      have hchild_min : ∀ (d : Nat), d % 2 = 0 → fuel + 1 = D - d →
          ∀ (c : S) (cache : Cache S), CacheOK G D cache →
            (minVC G fuel c (d+1) none none cache).1 = minV G fuel c (d+1) none none ∧
            CacheOK G D (minVC G fuel c (d+1) none none cache).2 := by
        intro d hd hfuel c cache hOK
        exact ih.2 c (d+1) cache hOK (by omega) (by omega)
      have hchild_max : ∀ (d : Nat), d % 2 = 1 → fuel + 1 = D - d →
          ∀ (c : S) (cache : Cache S), CacheOK G D cache →
            (maxVC G fuel c (d+1) none none cache).1 = maxV G fuel c (d+1) none none ∧
            CacheOK G D (maxVC G fuel c (d+1) none none cache).2 := by
        intro d hd hfuel c cache hOK
        exact ih.1 c (d+1) cache hOK (by omega) (by omega)
      constructor
      · intro s d cache hOK hd hfuel
        rw [maxVC_succ_none, maxV_succ]
        by_cases ht : G.isTerminal s
        · rw [if_pos ht, if_pos ht]
          exact ⟨rfl, hOK⟩
        · rw [if_neg ht, if_neg ht]
          have hloop := goMaxC_nc G D (hchild_min d hd hfuel) (G.succ s d) PF.ninf cache hOK
          have hstoreval :
              (goMaxC (fun c al2 be2 ch => minVC G fuel c (d+1) al2 be2 ch)
                (G.succ s d) PF.ninf none none cache).1 =
              (if d % 2 = 1 then minV G (D - d) s d none none
                else maxV G (D - d) s d none none) := by
            rw [if_neg (by omega), ← hfuel, maxV_succ, if_neg ht]
            exact hloop.1
          cases hfind : cacheFind cache (s, d) with
          | none =>
              dsimp only
              refine ⟨hloop.1, ?_⟩
              exact cacheOK_store_none hloop.2 s d _ hstoreval
          | some e =>
              obtain ⟨fl, v⟩ := e
              dsimp only
              have hv : v = maxV G (fuel+1) s d none none := by
                have := hOK s d fl v hfind
                rw [if_neg (by omega)] at this
                rw [this, ← hfuel]
              by_cases htr : v.truthy = true
              · rw [if_pos htr]
                refine ⟨?_, hOK⟩
                rw [hv, maxV_succ, if_neg ht]
              · rw [if_neg htr]
                refine ⟨hloop.1, ?_⟩
                exact cacheOK_store_none hloop.2 s d _ hstoreval
      · intro s d cache hOK hd hfuel
        rw [minVC_succ_none, minV_succ]
        by_cases ht : G.isTerminal s
        · rw [if_pos ht, if_pos ht]
          exact ⟨rfl, hOK⟩
        · rw [if_neg ht, if_neg ht]
          have hloop := goMinC_nc G D (hchild_max d hd hfuel) (G.succ s d) PF.pinf cache hOK
          have hstoreval :
              (goMinC (fun c al2 be2 ch => maxVC G fuel c (d+1) al2 be2 ch)
                (G.succ s d) PF.pinf none none cache).1 =
              (if d % 2 = 1 then minV G (D - d) s d none none
                else maxV G (D - d) s d none none) := by
            rw [if_pos hd, ← hfuel, minV_succ, if_neg ht]
            exact hloop.1
          cases hfind : cacheFind cache (s, d) with
          | none =>
              dsimp only
              refine ⟨hloop.1, ?_⟩
              exact cacheOK_store_none hloop.2 s d _ hstoreval
          | some e =>
              obtain ⟨fl, v⟩ := e
              dsimp only
              have hv : v = minV G (fuel+1) s d none none := by
                have := hOK s d fl v hfind
                rw [if_pos hd] at this
                rw [this, ← hfuel]
              by_cases htr : v.truthy = true
              · rw [if_pos htr]
                refine ⟨?_, hOK⟩
                rw [hv, minV_succ, if_neg ht]
              · rw [if_neg htr]
                refine ⟨hloop.1, ?_⟩
                exact cacheOK_store_none hloop.2 s d _ hstoreval

theorem rootGoC_cons_none (G : MMGame S) (fuel : Nat) (c : S) (rest : List S)
    (v : PF) (cache : Cache S) :
    rootGoC G fuel (c :: rest) v none none cache =
      rootGoC G fuel rest (max v (minVC G fuel c 1 none none cache).1) none none
        (minVC G fuel c 1 none none cache).2 := rfl

/-- The cached root loop under `None` windows computes the plain root
loop's value. -/
theorem rootGoC_none_eq (G : MMGame S) (D : Nat) :
    ∀ (cs : List S) (v : PF) (cache : Cache S), CacheOK G D cache →
      (rootGoC G (D - 1) cs v none none cache).1 = rootGo G (D - 1) cs v none none := by
  intro cs
  induction cs with
  | nil => intro v cache _; rfl
  | cons c rest ih =>
      intro v cache hOK
      have hchild := (mmC_nc G D (D - 1)).2 c 1 cache hOK (by omega) rfl
      rw [rootGoC_cons_none, rootGo_cons_none, hchild.1]
      exact ih _ _ hchild.2

/-- **C2 (amended).** With alpha-beta pruning disabled (and a
cache-independent expansion policy, as in the default `linearExpansion`),
`Minimax.search` with `toCache=True` returns the same root value as with
`toCache=False`; with `resetCache=True` the cache starts empty on each
call, so this holds across repeated calls.  (With pruning enabled the
equality fails: see the counterexample.) -/
theorem C2_amended_cache_sound_without_pruning (G : MMGame S) (D : Nat) (s : S)
    (hD : 1 ≤ D) : searchCValue G D s false = searchValue G D s false := by
  unfold searchCValue searchValue
  rw [if_neg Bool.false_ne_true, if_neg Bool.false_ne_true]
  exact rootGoC_none_eq G D (G.succ s 0) PF.ninf [] (cacheOK_nil G D)

end MinimaxCacheSound

/-- Witness for the amended C2 theorem at a concrete engine (depth 3). -/
theorem C2_witness : 1 ≤ 3 ∧ searchCValue cexG 3 0 false = searchValue cexG 3 0 false :=
  ⟨by decide, C2_amended_cache_sound_without_pruning cexG 3 0 (by decide)⟩

/-- **C2 (counterexample).** On the transposition game `cexG` with depth 3
and pruning enabled (the same depth, evaluation function, expansion policy
and pruning flag in both runs, `resetCache=True` so the cache starts
empty), the cache-enabled search returns root value 7 while the
cache-disabled search returns 9. -/
theorem C2_counterexample : searchCValue cexG 3 0 true ≠ searchValue cexG 3 0 true := by
  decide

/-- Witness for C1 at a concrete engine (depth 3). -/
theorem C1_witness : 1 ≤ 3 ∧ searchValue cexG 3 0 true = searchValue cexG 3 0 false :=
  ⟨by decide, C1_pruning_preserves_root_value cexG 3 0 (by decide)⟩

/-!
## The cache read/store discipline (claim C3)

A one-node game and a cache holding an `__eq__` (`Exact`) entry with value
`0.0` for the node: because `maxValue` resumes the full search whenever the
value handed back by `readCache` is falsy (`if value: return value`), the
exact cached `0.0` is *not* returned immediately even though the window
`(-1, 1)` is active. -/

def c3G : MMGame Nat where
  isTerminal := fun _ => false
  evalF := fun s _ => if s = 51 then 7 else 0
  succ := fun s _ => if s = 50 then [51] else []

def c3cache : Cache Nat := [((50, 2), (CFlag.eqF, PF.fin 0))]

/-- **C3 (counterexample).** With the window `alpha = -1 < beta = 1` in
effect and an `Exact` entry of value `0` cached for `(50, 2)`, `maxValue`
does **not** return the cached value immediately: it recomputes and returns
`7` (and overwrites the entry). -/
theorem C3_counterexample :
    cacheFind c3cache (50, 2) = some (CFlag.eqF, PF.fin 0) ∧
    (maxVC c3G 1 50 2 (some (PF.fin (-1))) (some (PF.fin 1)) c3cache).1 = PF.fin 7 ∧
    (maxVC c3G 1 50 2 (some (PF.fin (-1))) (some (PF.fin 1)) c3cache).1 ≠ PF.fin 0 := by
  decide

section C3Amended

variable {S : Type} [DecidableEq S]

/-- **C3 (amended).** The cache discipline, with Python's truthiness rules
made explicit.  For a window whose bounds `alpha`, `beta` are truthy
(nonzero, non-`None`): an `Exact` (`__eq__`) entry is handed back by
`readCache` unchanged — and `maxValue`/`minValue` return it immediately
provided it is itself truthy; a `LowerBound` (`__geq__`) entry `v ≥ beta`
short-circuits with `v`, else tightens `alpha := v` when
`alpha < v < beta`; an `UpperBound` (`__leq__`) entry `v ≤ alpha`
short-circuits with `v`, else tightens `beta := v` when `alpha < v < beta`.
A freshly computed value is stored as `Exact` when no window is active,
`UpperBound` when `value ≤ alpha`, `Exact` when `alpha < value < beta`, and
`LowerBound` when `value ≥ beta`. -/
theorem C3_amended_cache_discipline (G : MMGame S) (cache : Cache S) (s : S)
    (d fuel : Nat) (a b v : PF) (ha : a.truthy = true) (hb : b.truthy = true)
    (hab : a < b) :
    (cacheFind cache (s, d) = some (CFlag.eqF, v) →
      readCache cache s d (some a) (some b) = (some a, some b, some v)) ∧
    (cacheFind cache (s, d) = some (CFlag.eqF, v) → v.truthy = true →
      G.isTerminal s = false →
      maxVC G (fuel+1) s d (some a) (some b) cache = (v, cache) ∧
      minVC G (fuel+1) s d (some a) (some b) cache = (v, cache)) ∧
    (cacheFind cache (s, d) = some (CFlag.geqF, v) → b ≤ v →
      readCache cache s d (some a) (some b) = (some a, some b, some v)) ∧
    (cacheFind cache (s, d) = some (CFlag.geqF, v) → a < v → v < b →
      readCache cache s d (some a) (some b) = (some v, some b, none)) ∧
    (cacheFind cache (s, d) = some (CFlag.leqF, v) → v ≤ a →
      readCache cache s d (some a) (some b) = (some a, some b, some v)) ∧
    (cacheFind cache (s, d) = some (CFlag.leqF, v) → a < v → v < b →
      readCache cache s d (some a) (some b) = (some a, some v, none)) ∧
    (storeCache cache s d none none v = cacheStore cache (s, d) (CFlag.eqF, v)) ∧
    (a < v → v < b →
      storeCache cache s d (some a) (some b) v = cacheStore cache (s, d) (CFlag.eqF, v)) ∧
    (v ≤ a →
      storeCache cache s d (some a) (some b) v = cacheStore cache (s, d) (CFlag.leqF, v)) ∧
    (b ≤ v →
      storeCache cache s d (some a) (some b) v = cacheStore cache (s, d) (CFlag.geqF, v)) := by
  have hwin : ¬(PF.otruthy (some a) = false ∨ PF.otruthy (some b) = false) := by
    simp [ha, hb]
  refine ⟨?_, ?_, ?_, ?_, ?_, ?_, ?_, ?_, ?_, ?_⟩
  · intro hfind
    rw [readCache_eq, if_neg hwin, hfind]
  · intro hfind htr ht
    have hread : readCache cache s d (some a) (some b) = (some a, some b, some v) := by
      rw [readCache_eq, if_neg hwin, hfind]
    constructor
    · rw [maxVC_succ, if_neg (by simp [ht]), hread]
      dsimp only
      rw [if_pos htr]
    · rw [minVC_succ, if_neg (by simp [ht]), hread]
      dsimp only
      rw [if_pos htr]
  · intro hfind hbv
    rw [readCache_eq, if_neg hwin, hfind]
    dsimp only
    rw [if_pos hbv]
  · intro hfind hav hvb
    rw [readCache_eq, if_neg hwin, hfind]
    dsimp only
    rw [if_neg (not_le.mpr hvb), if_pos ⟨hav, hvb⟩]
  · intro hfind hva
    rw [readCache_eq, if_neg hwin, hfind]
    dsimp only
    rw [if_pos hva]
  · intro hfind hav hvb
    rw [readCache_eq, if_neg hwin, hfind]
    dsimp only
    rw [if_neg (not_le.mpr hav), if_pos ⟨hav, hvb⟩]
  · rw [storeCache_eq, if_pos (by simp)]
  · intro hav hvb
    rw [storeCache_eq, if_neg hwin]
    dsimp only
    rw [if_neg (not_le.mpr hav), if_pos ⟨hav, hvb⟩]
  · intro hva
    rw [storeCache_eq, if_neg hwin]
    dsimp only
    rw [if_pos hva]
  · intro hbv
    rw [storeCache_eq, if_neg hwin]
    dsimp only
    rw [if_neg (not_le.mpr (lt_of_lt_of_le hab hbv)),
      if_neg (fun h => absurd h.2 (not_lt.mpr hbv)), if_pos hbv]

/-- Witness for the amended C3 theorem at the concrete game `c3G`, cache
`c3cache` and window `(-1, 1)`. -/
theorem C3_witness :
    (PF.fin (-1)).truthy = true ∧ (PF.fin 1).truthy = true ∧ PF.fin (-1) < PF.fin 1 ∧
    ((cacheFind c3cache (50, 2) = some (CFlag.eqF, PF.fin 7) →
      readCache c3cache 50 2 (some (PF.fin (-1))) (some (PF.fin 1)) =
        (some (PF.fin (-1)), some (PF.fin 1), some (PF.fin 7))) ∧
     (cacheFind c3cache (50, 2) = some (CFlag.eqF, PF.fin 7) → (PF.fin 7).truthy = true →
      c3G.isTerminal 50 = false →
      maxVC c3G 1 50 2 (some (PF.fin (-1))) (some (PF.fin 1)) c3cache = (PF.fin 7, c3cache) ∧
      minVC c3G 1 50 2 (some (PF.fin (-1))) (some (PF.fin 1)) c3cache = (PF.fin 7, c3cache)) ∧
     (cacheFind c3cache (50, 2) = some (CFlag.geqF, PF.fin 7) → PF.fin 1 ≤ PF.fin 7 →
      readCache c3cache 50 2 (some (PF.fin (-1))) (some (PF.fin 1)) =
        (some (PF.fin (-1)), some (PF.fin 1), some (PF.fin 7))) ∧
     (cacheFind c3cache (50, 2) = some (CFlag.geqF, PF.fin 7) →
      PF.fin (-1) < PF.fin 7 → PF.fin 7 < PF.fin 1 →
      readCache c3cache 50 2 (some (PF.fin (-1))) (some (PF.fin 1)) =
        (some (PF.fin 7), some (PF.fin 1), none)) ∧
     (cacheFind c3cache (50, 2) = some (CFlag.leqF, PF.fin 7) → PF.fin 7 ≤ PF.fin (-1) →
      readCache c3cache 50 2 (some (PF.fin (-1))) (some (PF.fin 1)) =
        (some (PF.fin (-1)), some (PF.fin 1), some (PF.fin 7))) ∧
     (cacheFind c3cache (50, 2) = some (CFlag.leqF, PF.fin 7) →
      PF.fin (-1) < PF.fin 7 → PF.fin 7 < PF.fin 1 →
      readCache c3cache 50 2 (some (PF.fin (-1))) (some (PF.fin 1)) =
        (some (PF.fin (-1)), some (PF.fin 7), none)) ∧
     (storeCache c3cache 50 2 none none (PF.fin 7) =
      cacheStore c3cache (50, 2) (CFlag.eqF, PF.fin 7)) ∧
     (PF.fin (-1) < PF.fin 7 → PF.fin 7 < PF.fin 1 →
      storeCache c3cache 50 2 (some (PF.fin (-1))) (some (PF.fin 1)) (PF.fin 7) =
        cacheStore c3cache (50, 2) (CFlag.eqF, PF.fin 7)) ∧
     (PF.fin 7 ≤ PF.fin (-1) →
      storeCache c3cache 50 2 (some (PF.fin (-1))) (some (PF.fin 1)) (PF.fin 7) =
        cacheStore c3cache (50, 2) (CFlag.leqF, PF.fin 7)) ∧
     (PF.fin 1 ≤ PF.fin 7 →
      storeCache c3cache 50 2 (some (PF.fin (-1))) (some (PF.fin 1)) (PF.fin 7) =
        cacheStore c3cache (50, 2) (CFlag.geqF, PF.fin 7))) :=
  ⟨by decide, by decide, by decide,
    C3_amended_cache_discipline c3G c3cache 50 2 0 (PF.fin (-1)) (PF.fin 1) (PF.fin 7)
      (by decide) (by decide) (by decide)⟩

end C3Amended

/-!
## MCTS engine (`mcts/mcts.py`, `mcts/core/node.py`)

The tree is functional: a `Node` holds a state, a visit counter, an
accumulated utility (`None` until the first backpropagation) and an
insertion-ordered association list of `(action, child)` pairs (the Python
dict `self.children`).  The mutable parent back-references used by
`backpropagation` are modelled by updating every node along the root-path
of the chosen node (the same set of nodes the Python `while node:
... node = node.parent` walk visits).  A node in the tree is addressed by
its path: the list of child indices from the root.

Python's calling convention matters for C5, so a selection policy is a
callable carrying its positional-parameter count: a call with a different
number of arguments raises `TypeError` before the body runs. -/

/-- The Python exceptions the engine can raise. -/
inductive PyErr where
  | typeError | indexError
deriving DecidableEq, Repr

/-- `mcts.core.node.Node`: state, visit count, accumulated utilities
(`None` until first visited), children keyed by action in insertion
order. -/
inductive MTree (S A U : Type) where
  | mk (state : S) (numVisits : Nat) (utilities : Option U) (children : List (A × MTree S A U))

namespace MTree

variable {S A U : Type}

def state : MTree S A U → S
  | .mk s _ _ _ => s

def numVisits : MTree S A U → Nat
  | .mk _ n _ _ => n

def utilities : MTree S A U → Option U
  | .mk _ _ u _ => u

def children : MTree S A U → List (A × MTree S A U)
  | .mk _ _ _ cs => cs

/-- `Node.isLeaf`: no children, or a terminal state. -/
def isLeaf (isTerminal : S → Bool) (t : MTree S A U) : Bool :=
  t.children.length == 0 || isTerminal t.state

end MTree

/-- An argument of a Python call to a selection policy
(`self.selectionPolicy(node, self.explorationConstant, self.utilityIdx)`). -/
inductive PyArg (S A U : Type) where
  | nodeArg (t : MTree S A U)
  | numArg (q : ℚ)
  | idxArg (l : Option (List Nat))

/-- A Python callable: its positional-parameter count (after `self`) and
its body.  The body returns the index of the chosen child within the
node's children. -/
structure PyCallable (S A U : Type) where
  params : Nat
  fn : List (PyArg S A U) → Nat

/-- Python's call protocol: binding `args` to a callable with a different
number of positional parameters raises `TypeError` before the body runs. -/
def callPy {S A U : Type} (c : PyCallable S A U) (args : List (PyArg S A U)) :
    Except PyErr Nat :=
  if args.length = c.params then .ok (c.fn args) else .error .typeError

/-- `UCB.__call__(self, node, depth)` (selection.py line 25) as a callable:
exactly **two** positional parameters after `self`.  The body `fn` is
abstract here because Python raises the arity `TypeError` before any body
runs — see C5; the body itself (the UCB formula) is modelled separately as
`ucbCall` below. -/
def ucbCallable {S A U : Type} (fn : List (PyArg S A U) → Nat) : PyCallable S A U where
  params := 2
  fn := fn

/-- The configuration of an `MCTS` engine (constructor arguments and the
`search` keyword arguments); `rollout` takes a call counter modelling the
randomness source, and `utilityTruthy` is Python truthiness on the
caller's utility type (`if node.utilities:`). -/
structure MCTSEngine (S A U : Type) where
  isTerminal : S → Bool
  takeAction : S → A → S
  selectionPolicy : PyCallable S A U
  expansionPolicy : S → List A
  rollout : S → Nat → U
  utilitySumFunc : U → U → U
  utilityTruthy : U → Bool
  explorationConstant : ℚ
  utilityIdx : Option (List Nat)
  simPerIter : Nat

section MCTSEngineDefs

variable {S A U : Type}

/-- Apply `g` to the `i`-th child (no-op when `i` is out of range, which is
unreachable for paths produced by the engine). -/
def updateChild : List (A × MTree S A U) → Nat → (MTree S A U → MTree S A U) →
    List (A × MTree S A U)
  | [], _, _ => []
  | (a, c) :: cs, 0, g => (a, g c) :: cs
  | (a, c) :: cs, i+1, g => (a, c) :: updateChild cs i g

/-- The node addressed by a root-path of child indices. -/
def nodeAt : MTree S A U → List Nat → Option (MTree S A U)
  | t, [] => some t
  | t, i :: p =>
    match t.children.get? i with
    | some (_, c) => nodeAt c p
    | none => none

/-- Replace the node at a root-path by `g` of it. -/
def modifyAt : MTree S A U → List Nat → (MTree S A U → MTree S A U) → MTree S A U
  | t, [], g => g t
  | .mk s n u cs, i :: p, g => .mk s n u (updateChild cs i (fun c => modifyAt c p g))

/-- `MCTS.backpropagation(node, utility, utilitySumFunc)`: walk from the
chosen node (addressed by `p`) up to the root — functionally, from the
root down along `p` — incrementing `numVisits` and folding the utility in:
`if node.utilities: node.utilities = utilitySumFunc(node.utilities, utility)
else: node.utilities = utility` (Python truthiness on the accumulated
utility). -/
def backprop (truthy : U → Bool) (f : U → U → U) (u : U) :
    MTree S A U → List Nat → MTree S A U
  | .mk s n ut cs, p =>
    let ut2 : Option U := match ut with
      | some acc => if truthy acc then some (f acc u) else some u
      | none => some u
    match p with
    | [] => .mk s (n+1) ut2 cs
    | i :: rest => .mk s (n+1) ut2 (updateChild cs i (fun c => backprop truthy f u c rest))

end MCTSEngineDefs

section MCTSEngineRun

variable {S A U : Type} [DecidableEq A]

theorem sizeOf_child_lt {S A U : Type} [SizeOf S] [SizeOf A] [SizeOf U]
    {t : MTree S A U} {i : Nat} {a : A} {c : MTree S A U}
    (h : t.children.get? i = some (a, c)) : sizeOf c < sizeOf t := by
  obtain ⟨s, n, u, cs⟩ := t
  have hmem : (a, c) ∈ cs := by
    simpa [MTree.children] using List.get?_mem h
  have h1 : sizeOf (a, c) < sizeOf cs := List.sizeOf_lt_of_mem hmem
  have h2 : sizeOf c < sizeOf (a, c) := by
    simp only [Prod.mk.sizeOf_spec]
    omega
  have : sizeOf (MTree.mk s n u cs) = 1 + sizeOf s + sizeOf n + sizeOf u + sizeOf cs := by
    simp
  omega

/-- `MCTS.selection`: descend from the root, invoking the selection policy
with **three** positional arguments
(`self.selectionPolicy(node, self.explorationConstant, self.utilityIdx)`,
mcts.py line 104) until a leaf is reached. -/
def selectPath (eng : MCTSEngine S A U) (t : MTree S A U) : Except PyErr (List Nat) :=
  if t.isLeaf eng.isTerminal then .ok []
  else
    match callPy eng.selectionPolicy
      [.nodeArg t, .numArg eng.explorationConstant, .idxArg eng.utilityIdx] with
    | .error e => .error e
    | .ok i =>
      match h : t.children.get? i with
      | some (_, c) =>
        match selectPath eng c with
        | .error e => .error e
        | .ok rest => .ok (i :: rest)
      | none => .error .indexError
termination_by sizeOf t
decreasing_by exact sizeOf_child_lt h

/-- Dict insertion `node.children[action] = newNode`: replace if the key
is present, else append. -/
def childrenInsert : List (A × MTree S A U) → A → MTree S A U → List (A × MTree S A U)
  | [], a, nd => [(a, nd)]
  | (a0, c0) :: cs, a, nd =>
    if a0 = a then (a, nd) :: cs else (a0, c0) :: childrenInsert cs a nd

/-- The `for action in actions` loop of `MCTS.expansion`: insert a fresh
node `Node(state.takeAction(action), node)` for every action, in order. -/
def expandChildren (eng : MCTSEngine S A U) (s : S) (actions : List A) :
    List (A × MTree S A U) :=
  actions.foldl (fun cs a => childrenInsert cs a (MTree.mk (eng.takeAction s a) 0 none [])) []

/-- `MCTS.expansion(node)` on the node addressed by `p`: fully expand it and
return (the path of) `node.children[actions[0]]`.  An empty action list
makes `actions[0]` raise `IndexError`. -/
def expansionE (eng : MCTSEngine S A U) (t : MTree S A U) (p : List Nat) :
    Except PyErr (MTree S A U × List Nat) :=
  match nodeAt t p with
  | none => .error .indexError
  | some n =>
    match eng.expansionPolicy n.state with
    | [] => .error .indexError
    | a0 :: as =>
      let newcs := expandChildren eng n.state (a0 :: as)
      let t2 := modifyAt t p (fun nd => .mk nd.state nd.numVisits nd.utilities newcs)
      match newcs.findIdx? (fun q => decide (q.1 = a0)) with
      | some j => .ok (t2, p ++ [j])
      | none => .error .indexError

/-- The mutable state of one `search` call: the tree and the number of
simulation calls made so far (feeding `rollout`'s randomness index). -/
structure MCState (S A U : Type) where
  tree : MTree S A U
  rng : Nat

/-- The `for i in range(self.simPerIter)` loop of `MCTS.oneIteration`:
simulate from the chosen node's state and backpropagate along its path. -/
def simLoop (eng : MCTSEngine S A U) (s : S) :
    Nat → MTree S A U → List Nat → Nat → MCState S A U
  | 0, t, _, r => ⟨t, r⟩
  | k+1, t, p, r =>
    simLoop eng s k (backprop eng.utilityTruthy eng.utilitySumFunc (eng.rollout s r) t p) p (r+1)

/-- `MCTS.oneIteration`: selection, conditional expansion
(`node.numVisits > 0 and not node.state.isTerminal()`), then
`simPerIter` simulations each followed by backpropagation. -/
def oneIterationE (eng : MCTSEngine S A U) (ms : MCState S A U) :
    Except PyErr (MCState S A U) :=
  match selectPath eng ms.tree with
  | .error e => .error e
  | .ok p =>
    match nodeAt ms.tree p with
    | none => .error .indexError
    | some n =>
      if n.numVisits > 0 && !(eng.isTerminal n.state) then
        match expansionE eng ms.tree p with
        | .error e => .error e
        | .ok (t2, p2) =>
          match nodeAt t2 p2 with
          | none => .error .indexError
          | some nd => .ok (simLoop eng nd.state eng.simPerIter t2 p2 ms.rng)
      else .ok (simLoop eng n.state eng.simPerIter ms.tree p ms.rng)

/-- `k` iterations of the `while iterCnt < maxIter and timePassed < timeMax`
loop of `MCTS.search` (`k` is the number of completed `oneIteration`
calls the iteration/time budgets allow). -/
def searchLoopE (eng : MCTSEngine S A U) : Nat → MCState S A U → Except PyErr (MCState S A U)
  | 0, ms => .ok ms
  | k+1, ms =>
    match oneIterationE eng ms with
    | .error e => .error e
    | .ok ms2 => searchLoopE eng k ms2

end MCTSEngineRun

section MCTSLemmas

variable {S A U : Type}

theorem updateChild_get_eq (cs : List (A × MTree S A U)) (i : Nat)
    (g : MTree S A U → MTree S A U) :
    (updateChild cs i g).get? i = (cs.get? i).map (fun p => (p.1, g p.2)) := by
  induction cs generalizing i with
  | nil => cases i <;> rfl
  | cons p rest ih =>
      obtain ⟨a, c⟩ := p
      cases i with
      | zero => rfl
      | succ i => simpa [updateChild] using ih i

theorem updateChild_get_ne (cs : List (A × MTree S A U)) (i j : Nat)
    (g : MTree S A U → MTree S A U) (h : j ≠ i) :
    (updateChild cs i g).get? j = cs.get? j := by
  induction cs generalizing i j with
  | nil => cases i <;> rfl
  | cons p rest ih =>
      obtain ⟨a, c⟩ := p
      cases i with
      | zero =>
          cases j with
          | zero => exact absurd rfl h
          | succ j => rfl
      | succ i =>
          cases j with
          | zero => rfl
          | succ j => simpa [updateChild] using ih i j (fun he => h (by rw [he]))

theorem updateChild_length (cs : List (A × MTree S A U)) (i : Nat)
    (g : MTree S A U → MTree S A U) :
    (updateChild cs i g).length = cs.length := by
  induction cs generalizing i with
  | nil => cases i <;> rfl
  | cons p rest ih =>
      obtain ⟨a, c⟩ := p
      cases i with
      | zero => rfl
      | succ i => simpa [updateChild] using ih i

theorem backprop_state (truthy : U → Bool) (f : U → U → U) (u : U)
    (t : MTree S A U) (p : List Nat) :
    (backprop truthy f u t p).state = t.state := by
  obtain ⟨s, n, ut, cs⟩ := t
  cases p <;> rfl

theorem backprop_numVisits (truthy : U → Bool) (f : U → U → U) (u : U)
    (t : MTree S A U) (p : List Nat) :
    (backprop truthy f u t p).numVisits = t.numVisits + 1 := by
  obtain ⟨s, n, ut, cs⟩ := t
  cases p <;> rfl

theorem backprop_utilities (truthy : U → Bool) (f : U → U → U) (u : U)
    (t : MTree S A U) (p : List Nat) :
    (backprop truthy f u t p).utilities =
      some (match t.utilities with
        | some acc => if truthy acc then f acc u else u
        | none => u) := by
  obtain ⟨s, n, ut, cs⟩ := t
  cases p <;> cases ut <;> simp [backprop, MTree.utilities] <;> split <;> rfl

theorem backprop_children_nil (truthy : U → Bool) (f : U → U → U) (u : U)
    (t : MTree S A U) :
    (backprop truthy f u t []).children = t.children := by
  obtain ⟨s, n, ut, cs⟩ := t
  rfl

theorem backprop_children_cons (truthy : U → Bool) (f : U → U → U) (u : U)
    (t : MTree S A U) (i : Nat) (rest : List Nat) :
    (backprop truthy f u t (i :: rest)).children =
      updateChild t.children i (fun c => backprop truthy f u c rest) := by
  obtain ⟨s, n, ut, cs⟩ := t
  rfl

theorem backprop_children_length (truthy : U → Bool) (f : U → U → U) (u : U)
    (t : MTree S A U) (p : List Nat) :
    (backprop truthy f u t p).children.length = t.children.length := by
  cases p with
  | nil => rw [backprop_children_nil]
  | cons i rest => rw [backprop_children_cons, updateChild_length]

theorem nodeAt_nil (t : MTree S A U) : nodeAt t [] = some t := rfl

theorem nodeAt_append (p q : List Nat) :
    ∀ t : MTree S A U, nodeAt t (p ++ q) = (nodeAt t p).bind fun n => nodeAt n q := by
  induction p with
  | nil => intro t; rfl
  | cons i p ih =>
      intro t
      show nodeAt t (i :: (p ++ q)) = _
      cases hg : t.children.get? i with
      | none =>
          rw [List.get?_eq_getElem?] at hg
          simp [nodeAt, hg]
      | some pr =>
          obtain ⟨a, c⟩ := pr
          rw [List.get?_eq_getElem?] at hg
          simp [nodeAt, hg, ih c]

theorem nodeAt_modifyAt (p : List Nat) :
    ∀ (t : MTree S A U) (g : MTree S A U → MTree S A U),
      nodeAt (modifyAt t p g) p = (nodeAt t p).map g := by
  induction p with
  | nil =>
      intro t g
      obtain ⟨s, n, u, cs⟩ := t
      rfl
  | cons i p ih =>
      intro t g
      obtain ⟨s, n, u, cs⟩ := t
      show nodeAt (MTree.mk s n u (updateChild cs i (fun c => modifyAt c p g))) (i :: p) = _
      have hup := updateChild_get_eq cs i (fun c => modifyAt c p g)
      cases hg : cs.get? i with
      | none =>
          rw [hg] at hup
          rw [List.get?_eq_getElem?] at hup hg
          simp [nodeAt, MTree.children, hup, hg]
      | some pr =>
          obtain ⟨a, c⟩ := pr
          rw [hg] at hup
          rw [List.get?_eq_getElem?] at hup hg
          simp [nodeAt, MTree.children, hup, hg, ih c]

theorem modifyAt_numVisits (p : List Nat) (t : MTree S A U)
    (g : MTree S A U → MTree S A U) (hg : ∀ nd, (g nd).numVisits = nd.numVisits) :
    (modifyAt t p g).numVisits = t.numVisits := by
  obtain ⟨s, n, u, cs⟩ := t
  cases p with
  | nil => exact hg _
  | cons i rest => rfl

/-- The `simPerIter` simulation/backpropagation loop adds exactly its
iteration count to the root's visit count. -/
theorem simLoop_numVisits (eng : MCTSEngine S A U) (s : S) :
    ∀ (k : Nat) (t : MTree S A U) (p : List Nat) (r : Nat),
      (simLoop eng s k t p r).tree.numVisits = t.numVisits + k := by
  intro k
  induction k with
  | zero => intro t p r; rfl
  | succ k ih =>
      intro t p r
      show (simLoop eng s k _ p (r+1)).tree.numVisits = _
      rw [ih, backprop_numVisits]
      omega

theorem simLoop_state (eng : MCTSEngine S A U) (s : S) :
    ∀ (k : Nat) (t : MTree S A U) (p : List Nat) (r : Nat),
      (simLoop eng s k t p r).tree.state = t.state := by
  intro k
  induction k with
  | zero => intro t p r; rfl
  | succ k ih =>
      intro t p r
      show (simLoop eng s k _ p (r+1)).tree.state = _
      rw [ih, backprop_state]

theorem simLoop_children_nil (eng : MCTSEngine S A U) (s : S) :
    ∀ (k : Nat) (t : MTree S A U) (r : Nat),
      (simLoop eng s k t [] r).tree.children = t.children := by
  intro k
  induction k with
  | zero => intro t r; rfl
  | succ k ih =>
      intro t r
      show (simLoop eng s k _ [] (r+1)).tree.children = _
      rw [ih, backprop_children_nil]

theorem simLoop_children_length (eng : MCTSEngine S A U) (s : S) :
    ∀ (k : Nat) (t : MTree S A U) (p : List Nat) (r : Nat),
      (simLoop eng s k t p r).tree.children.length = t.children.length := by
  intro k
  induction k with
  | zero => intro t p r; rfl
  | succ k ih =>
      intro t p r
      show (simLoop eng s k _ p (r+1)).tree.children.length = _
      rw [ih, backprop_children_length]

end MCTSLemmas

section MCTSRunLemmas

variable {S A U : Type} [DecidableEq A]

/-- Inversion of a successful `expansion` call. -/
theorem expansionE_inv {eng : MCTSEngine S A U} {t : MTree S A U} {p : List Nat}
    {r : MTree S A U × List Nat} (h : expansionE eng t p = .ok r) :
    ∃ n a0 as j, nodeAt t p = some n ∧ eng.expansionPolicy n.state = a0 :: as ∧
      (expandChildren eng n.state (a0 :: as)).findIdx? (fun q => decide (q.1 = a0)) = some j ∧
      r = (modifyAt t p (fun nd => MTree.mk nd.state nd.numVisits nd.utilities
            (expandChildren eng n.state (a0 :: as))), p ++ [j]) := by
  unfold expansionE at h
  cases hn : nodeAt t p with
  | none => rw [hn] at h; exact absurd h (by simp)
  | some n =>
      rw [hn] at h
      dsimp only at h
      cases hacts : eng.expansionPolicy n.state with
      | nil => rw [hacts] at h; exact absurd h (by simp)
      | cons a0 as =>
          rw [hacts] at h
          dsimp only at h
          cases hidx : (expandChildren eng n.state (a0 :: as)).findIdx?
              (fun q => decide (q.1 = a0)) with
          | none => rw [hidx] at h; exact absurd h (by simp)
          | some j =>
              rw [hidx] at h
              dsimp only at h
              refine ⟨n, a0, as, j, rfl, hacts, hidx, ?_⟩
              exact (Except.ok.inj h).symm

/-- A successful `expansion` leaves the root's visit count unchanged. -/
theorem expansionE_numVisits {eng : MCTSEngine S A U} {t t2 : MTree S A U}
    {p p2 : List Nat} (h : expansionE eng t p = .ok (t2, p2)) :
    t2.numVisits = t.numVisits := by
  obtain ⟨n, a0, as, j, _, _, _, hr⟩ := expansionE_inv h
  have ht2 : t2 = modifyAt t p (fun nd => MTree.mk nd.state nd.numVisits nd.utilities
      (expandChildren eng n.state (a0 :: as))) := congrArg Prod.fst hr
  rw [ht2, modifyAt_numVisits]
  intro nd
  rfl

/-- One successful `oneIteration` call adds exactly `simPerIter` to the
root's visit count. -/
theorem oneIterationE_numVisits {eng : MCTSEngine S A U} {ms ms2 : MCState S A U}
    (h : oneIterationE eng ms = .ok ms2) :
    ms2.tree.numVisits = ms.tree.numVisits + eng.simPerIter := by
  unfold oneIterationE at h
  cases hsel : selectPath eng ms.tree with
  | error e => rw [hsel] at h; exact absurd h (by simp)
  | ok p =>
      rw [hsel] at h
      dsimp only at h
      cases hn : nodeAt ms.tree p with
      | none => rw [hn] at h; exact absurd h (by simp)
      | some n =>
          rw [hn] at h
          dsimp only at h
          by_cases hc : (n.numVisits > 0 && !(eng.isTerminal n.state)) = true
          · rw [if_pos hc] at h
            cases hexp : expansionE eng ms.tree p with
            | error e => rw [hexp] at h; exact absurd h (by simp)
            | ok pr =>
                obtain ⟨t2, p2⟩ := pr
                rw [hexp] at h
                dsimp only at h
                cases hn2 : nodeAt t2 p2 with
                | none => rw [hn2] at h; exact absurd h (by simp)
                | some nd =>
                    rw [hn2] at h
                    dsimp only at h
                    rw [← Except.ok.inj h, simLoop_numVisits,
                      expansionE_numVisits hexp]
          · rw [if_neg hc] at h
            rw [← Except.ok.inj h, simLoop_numVisits]

/-- `k` successful iterations add `k * simPerIter` to the root's visit
count. -/
theorem searchLoopE_numVisits (eng : MCTSEngine S A U) :
    ∀ (k : Nat) (ms ms' : MCState S A U), searchLoopE eng k ms = .ok ms' →
      ms'.tree.numVisits = ms.tree.numVisits + k * eng.simPerIter := by
  intro k
  induction k with
  | zero =>
      intro ms ms' h
      rw [← Except.ok.inj h]
      omega
  | succ k ih =>
      intro ms ms' h
      unfold searchLoopE at h
      cases h1 : oneIterationE eng ms with
      | error e => rw [h1] at h; exact absurd h (by simp)
      | ok ms1 =>
          rw [h1] at h
          dsimp only at h
          have h2 := ih ms1 ms' h
          rw [h2, oneIterationE_numVisits h1]
          ring

/-- Backpropagation along `p` updates every node on the path (`q` a prefix
of `p`): visit count incremented by exactly 1, utilities combined by
`utilitySumFunc` (first update assigns), state unchanged. -/
theorem backprop_nodeAt_on_path (truthy : U → Bool) (f : U → U → U) (u : U) :
    ∀ (q p r : List Nat) (t n : MTree S A U), q ++ r = p → nodeAt t q = some n →
      ∃ n', nodeAt (backprop truthy f u t p) q = some n' ∧
        n'.state = n.state ∧ n'.numVisits = n.numVisits + 1 ∧
        n'.utilities = some (match n.utilities with
          | some acc => if truthy acc then f acc u else u
          | none => u) := by
  intro q
  induction q with
  | nil =>
      intro p r t n hq hn
      have hn' : n = t := by
        have := hn
        rw [nodeAt_nil] at this
        exact (Option.some.inj this).symm
      subst hn'
      refine ⟨backprop truthy f u n p, nodeAt_nil _, backprop_state .., ?_, ?_⟩
      · exact backprop_numVisits ..
      · exact backprop_utilities ..
  | cons j q ih =>
      intro p r t n hq hn
      obtain ⟨s, nv, ut, cs⟩ := t
      subst hq
      cases hg : cs.get? j with
      | none =>
          exfalso
          have : nodeAt (MTree.mk s nv ut cs) (j :: q) = none := by
            rw [List.get?_eq_getElem?] at hg
            simp [nodeAt, MTree.children, hg]
          rw [this] at hn
          exact Option.noConfusion hn
      | some pr =>
          obtain ⟨a, c⟩ := pr
          have hnc : nodeAt c q = some n := by
            rw [List.get?_eq_getElem?] at hg
            simpa [nodeAt, MTree.children, hg] using hn
          obtain ⟨n', hn', hst, hnv, hut⟩ := ih (q ++ r) r c n rfl hnc
          refine ⟨n', ?_, hst, hnv, hut⟩
          show nodeAt (MTree.mk s (nv+1) _ (updateChild cs j
            (fun c => backprop truthy f u c (q ++ r)))) (j :: q) = some n'
          have hup := updateChild_get_eq cs j (fun c => backprop truthy f u c (q ++ r))
          rw [hg] at hup
          rw [List.get?_eq_getElem?] at hup
          simp [nodeAt, MTree.children, hup, hn']

/-- Backpropagation along `p` leaves every node **off** the path
unchanged. -/
theorem backprop_nodeAt_off_path (truthy : U → Bool) (f : U → U → U) (u : U) :
    ∀ (q p : List Nat) (t : MTree S A U), ¬(∃ r, q ++ r = p) →
      nodeAt (backprop truthy f u t p) q = nodeAt t q := by
  intro q
  induction q with
  | nil =>
      intro p t hq
      exact absurd ⟨p, rfl⟩ hq
  | cons j q ih =>
      intro p t hq
      obtain ⟨s, nv, ut, cs⟩ := t
      cases p with
      | nil =>
          show nodeAt (MTree.mk s (nv+1) _ cs) (j :: q) = nodeAt (MTree.mk s nv ut cs) (j :: q)
          cases hg : cs.get? j with
          | none =>
              rw [List.get?_eq_getElem?] at hg
              simp [nodeAt, MTree.children, hg]
          | some pr =>
              obtain ⟨a, c⟩ := pr
              rw [List.get?_eq_getElem?] at hg
              simp [nodeAt, MTree.children, hg]
      | cons i p' =>
          show nodeAt (MTree.mk s (nv+1) _ (updateChild cs i
            (fun c => backprop truthy f u c p'))) (j :: q) = _
          by_cases hji : j = i
          · subst hji
            have hq' : ¬(∃ r, q ++ r = p') := by
              intro ⟨r, hr⟩
              exact hq ⟨r, by rw [List.cons_append, hr]⟩
            have hup := updateChild_get_eq cs j (fun c => backprop truthy f u c p')
            cases hg : cs.get? j with
            | none =>
                rw [hg] at hup
                rw [List.get?_eq_getElem?] at hup hg
                simp [nodeAt, MTree.children, hup, hg]
            | some pr =>
                obtain ⟨a, c⟩ := pr
                rw [hg] at hup
                rw [List.get?_eq_getElem?] at hup hg
                simp [nodeAt, MTree.children, hup, hg, ih p' c hq']
          · have hup := updateChild_get_ne cs i j (fun c => backprop truthy f u c p') hji
            cases hg : cs.get? j with
            | none =>
                rw [hg] at hup
                rw [List.get?_eq_getElem?] at hup hg
                simp [nodeAt, MTree.children, hup, hg]
            | some pr =>
                obtain ⟨a, c⟩ := pr
                rw [hg] at hup
                rw [List.get?_eq_getElem?] at hup hg
                simp [nodeAt, MTree.children, hup, hg]

end MCTSRunLemmas

section C7C8

variable {S A U : Type} [DecidableEq A]

/-- **C7.** In one MCTS `search` call (root freshly created with visit
count 0): after every completed `oneIteration` call the root's visit count
equals the number of completed calls times `simPerIter`; and each
backpropagation walks from the chosen node up to the root, incrementing
exactly the nodes on that path by exactly 1 and combining the rollout
outcome into each node's accumulated value via the caller-supplied
combination function, the first update on a node assigning the outcome
(for utility values that are truthy, e.g. the nonempty per-player outcome
tuples the engine is designed for). -/
theorem C7_backpropagation_invariants (eng : MCTSEngine S A U)
    (htruthy : ∀ x, eng.utilityTruthy x = true) :
    (∀ (s0 : S) (k : Nat) (ms' : MCState S A U),
      searchLoopE eng k ⟨MTree.mk s0 0 none [], 0⟩ = .ok ms' →
      ms'.tree.numVisits = k * eng.simPerIter) ∧
    (∀ (u : U) (q p r : List Nat) (t n : MTree S A U), q ++ r = p → nodeAt t q = some n →
      ∃ n', nodeAt (backprop eng.utilityTruthy eng.utilitySumFunc u t p) q = some n' ∧
        n'.state = n.state ∧ n'.numVisits = n.numVisits + 1 ∧
        n'.utilities = some (match n.utilities with
          | some acc => eng.utilitySumFunc acc u
          | none => u)) ∧
    (∀ (u : U) (q p : List Nat) (t : MTree S A U), ¬(∃ r, q ++ r = p) →
      nodeAt (backprop eng.utilityTruthy eng.utilitySumFunc u t p) q = nodeAt t q) := by
  refine ⟨?_, ?_, ?_⟩
  · intro s0 k ms' h
    have := searchLoopE_numVisits eng k _ ms' h
    simpa [MTree.numVisits] using this
  · intro u q p r t n hq hn
    obtain ⟨n', h1, h2, h3, h4⟩ :=
      backprop_nodeAt_on_path eng.utilityTruthy eng.utilitySumFunc u q p r t n hq hn
    refine ⟨n', h1, h2, h3, ?_⟩
    rw [h4]
    cases hu : n.utilities with
    | none => rfl
    | some acc => simp [htruthy acc]
  · intro u q p t hq
    exact backprop_nodeAt_off_path eng.utilityTruthy eng.utilitySumFunc u q p t hq

/-- A concrete MCTS engine configuration used by the witnesses. -/
def engU : MCTSEngine Unit Nat Unit where
  isTerminal := fun _ => false
  takeAction := fun _ _ => ()
  selectionPolicy := ⟨3, fun _ => 0⟩
  expansionPolicy := fun _ => [0, 1]
  rollout := fun _ _ => ()
  utilitySumFunc := fun _ _ => ()
  utilityTruthy := fun _ => true
  explorationConstant := 1
  utilityIdx := none
  simPerIter := 1

/-- Witness for C7 at a concrete engine. -/
theorem C7_witness :
    (∀ x : Unit, engU.utilityTruthy x = true) ∧
    ((∀ (s0 : Unit) (k : Nat) (ms' : MCState Unit Nat Unit),
      searchLoopE engU k ⟨MTree.mk s0 0 none [], 0⟩ = .ok ms' →
      ms'.tree.numVisits = k * engU.simPerIter) ∧
    (∀ (u : Unit) (q p r : List Nat) (t n : MTree Unit Nat Unit),
      q ++ r = p → nodeAt t q = some n →
      ∃ n', nodeAt (backprop engU.utilityTruthy engU.utilitySumFunc u t p) q = some n' ∧
        n'.state = n.state ∧ n'.numVisits = n.numVisits + 1 ∧
        n'.utilities = some (match n.utilities with
          | some acc => engU.utilitySumFunc acc u
          | none => u)) ∧
    (∀ (u : Unit) (q p : List Nat) (t : MTree Unit Nat Unit), ¬(∃ r, q ++ r = p) →
      nodeAt (backprop engU.utilityTruthy engU.utilitySumFunc u t p) q = nodeAt t q)) :=
  ⟨fun _ => rfl, C7_backpropagation_invariants engU (fun _ => rfl)⟩

theorem childrenInsert_of_not_mem (a : A) (nd : MTree S A U) :
    ∀ cs : List (A × MTree S A U), (∀ pr ∈ cs, pr.1 ≠ a) →
      childrenInsert cs a nd = cs ++ [(a, nd)] := by
  intro cs
  induction cs with
  | nil => intro _; rfl
  | cons pr rest ih =>
      intro h
      obtain ⟨a0, c0⟩ := pr
      have ha0 : a0 ≠ a := h (a0, c0) (List.mem_cons_self _ _)
      show childrenInsert ((a0, c0) :: rest) a nd = _
      rw [childrenInsert, if_neg ha0, ih (fun pr hpr => h pr (List.mem_cons_of_mem _ hpr))]
      rfl

theorem expandChildren_fold_eq (eng : MCTSEngine S A U) (s : S) :
    ∀ (actions : List A) (acc : List (A × MTree S A U)), actions.Nodup →
      (∀ a ∈ actions, ∀ pr ∈ acc, pr.1 ≠ a) →
      actions.foldl (fun cs a => childrenInsert cs a (MTree.mk (eng.takeAction s a) 0 none []))
          acc =
        acc ++ actions.map (fun a => (a, MTree.mk (eng.takeAction s a) 0 none [])) := by
  intro actions
  induction actions with
  | nil => intro acc _ _; simp
  | cons a rest ih =>
      intro acc hnd hdisj
      have hnd' := (List.nodup_cons.mp hnd).2
      have hanotin := (List.nodup_cons.mp hnd).1
      show List.foldl _ (childrenInsert acc a (MTree.mk (eng.takeAction s a) 0 none [])) rest = _
      rw [childrenInsert_of_not_mem a _ acc (hdisj a (List.mem_cons_self _ _))]
      rw [ih (acc ++ [(a, MTree.mk (eng.takeAction s a) 0 none [])]) hnd' ?_]
      · simp
      · intro b hb pr hpr
        rcases List.mem_append.mp hpr with hpr1 | hpr2
        · exact hdisj b (List.mem_cons_of_mem _ hb) pr hpr1
        · have hpr' : pr = (a, MTree.mk (eng.takeAction s a) 0 none []) := by
            simpa using hpr2
          rw [hpr']
          intro he
          have hab : a = b := he
          exact hanotin (hab ▸ hb)

/-- With a duplicate-free action list, `expansion` builds exactly one fresh
child per action, keyed in order. -/
theorem expandChildren_eq_map (eng : MCTSEngine S A U) (s : S) (actions : List A)
    (hnd : actions.Nodup) :
    expandChildren eng s actions =
      actions.map (fun a => (a, MTree.mk (eng.takeAction s a) 0 none [])) := by
  have := expandChildren_fold_eq eng s actions [] hnd (by intro a _ pr hpr; cases hpr)
  simpa [expandChildren] using this

/-- **C8.** If the node addressed by `p` yields actions `a0 :: as`
(duplicate-free, per the game contract), `expansion` creates a child for
every action eagerly, keyed by action in policy order, and returns the
path of the first action's child; and if the selected leaf had been
visited and is non-terminal, `oneIteration` continues — `simPerIter`
simulations and backpropagations — with exactly that child. -/
theorem C8_expansion_eager_first_child (eng : MCTSEngine S A U) (t : MTree S A U)
    (p : List Nat) (n : MTree S A U) (a0 : A) (as : List A)
    (hn : nodeAt t p = some n) (hacts : eng.expansionPolicy n.state = a0 :: as)
    (hnd : (a0 :: as).Nodup) :
    expansionE eng t p = .ok
      (modifyAt t p (fun nd => MTree.mk nd.state nd.numVisits nd.utilities
         ((a0 :: as).map (fun a => (a, MTree.mk (eng.takeAction n.state a) 0 none [])))),
       p ++ [0]) ∧
    nodeAt (modifyAt t p (fun nd => MTree.mk nd.state nd.numVisits nd.utilities
         ((a0 :: as).map (fun a => (a, MTree.mk (eng.takeAction n.state a) 0 none [])))))
        (p ++ [0]) =
      some (MTree.mk (eng.takeAction n.state a0) 0 none []) ∧
    (∀ ms : MCState S A U, ms.tree = t → selectPath eng t = .ok p →
      0 < n.numVisits → eng.isTerminal n.state = false →
      oneIterationE eng ms = .ok (simLoop eng (eng.takeAction n.state a0) eng.simPerIter
        (modifyAt t p (fun nd => MTree.mk nd.state nd.numVisits nd.utilities
          ((a0 :: as).map (fun a => (a, MTree.mk (eng.takeAction n.state a) 0 none [])))))
        (p ++ [0]) ms.rng)) := by
  have hmap := expandChildren_eq_map eng n.state (a0 :: as) hnd
  have hfid : (((a0 :: as).map (fun a => (a, MTree.mk (eng.takeAction n.state a) 0 none [])) :
      List (A × MTree S A U))).findIdx? (fun q => decide (q.1 = a0)) = some 0 := by
    simp [List.findIdx?]
  have hexp : expansionE eng t p = .ok
      (modifyAt t p (fun nd => MTree.mk nd.state nd.numVisits nd.utilities
         ((a0 :: as).map (fun a => (a, MTree.mk (eng.takeAction n.state a) 0 none [])))),
       p ++ [0]) := by
    unfold expansionE
    rw [hn]
    dsimp only
    rw [hacts]
    dsimp only
    rw [hmap, hfid]
  have hnode : nodeAt (modifyAt t p (fun nd => MTree.mk nd.state nd.numVisits nd.utilities
         ((a0 :: as).map (fun a => (a, MTree.mk (eng.takeAction n.state a) 0 none [])))))
        (p ++ [0]) =
      some (MTree.mk (eng.takeAction n.state a0) 0 none []) := by
    rw [nodeAt_append, nodeAt_modifyAt, hn]
    rfl
  refine ⟨hexp, hnode, ?_⟩
  intro ms hms hsel hv ht
  unfold oneIterationE
  rw [hms, hsel]
  dsimp only
  rw [hn]
  dsimp only
  rw [if_pos (by simp [hv, ht]), hexp]
  dsimp only
  rw [hnode]
  rfl

/-- Witness for C8 at a concrete engine: a once-visited childless root with
actions `[0, 1]` is fully expanded, and the first action's child is
returned. -/
theorem C8_witness :
    ([0, 1] : List Nat).Nodup ∧
    expansionE engU (MTree.mk () 1 none []) [] = .ok
      (MTree.mk () 1 none [(0, MTree.mk () 0 none []), (1, MTree.mk () 0 none [])], [0]) := by
  refine ⟨by decide, ?_⟩
  exact (C8_expansion_eager_first_child engU (MTree.mk () 1 none []) []
    (MTree.mk () 1 none []) 0 [1] rfl rfl (by decide)).1

end C7C8

section C5Section

variable {S A U : Type} [DecidableEq A]

/-- Whatever the action list, the first inserted child keyed `actions[0]`
stays at position 0 of the children dict (later duplicate keys only
replace its — identical — fresh value). -/
theorem expandChildren_cons_head (eng : MCTSEngine S A U) (s : S) (a0 : A) (as : List A) :
    ∃ tl, expandChildren eng s (a0 :: as) =
      (a0, MTree.mk (eng.takeAction s a0) 0 none []) :: tl := by
  have main : ∀ (actions : List A) (tl0 : List (A × MTree S A U)),
      ∃ tl, actions.foldl
          (fun cs a => childrenInsert cs a (MTree.mk (eng.takeAction s a) 0 none []))
          ((a0, MTree.mk (eng.takeAction s a0) 0 none []) :: tl0) =
        (a0, MTree.mk (eng.takeAction s a0) 0 none []) :: tl := by
    intro actions
    induction actions with
    | nil => intro tl0; exact ⟨tl0, rfl⟩
    | cons a rest ih =>
        intro tl0
        show ∃ tl, rest.foldl _
          (childrenInsert ((a0, MTree.mk (eng.takeAction s a0) 0 none []) :: tl0) a
            (MTree.mk (eng.takeAction s a) 0 none [])) = _
        by_cases ha : a0 = a
        · subst ha
          rw [childrenInsert, if_pos rfl]
          exact ih tl0
        · rw [childrenInsert, if_neg ha]
          exact ih _
  show ∃ tl, (a0 :: as).foldl _ [] = _
  rw [List.foldl_cons]
  exact main as []

/-- **C5.** `MCTS.selection` invokes the selection policy with three
positional arguments (`node`, `explorationConstant`, `utilityIdx`), but the
bundled `UCB.__call__` accepts exactly two (`node`, `depth`): for every
engine whose selection policy is a UCB instance, a search on a non-terminal
state with at least one legal action, `simPerIter ≥ 1` and an
iteration budget allowing at least three iterations raises `TypeError`
(iteration 1 simulates the unvisited root, iteration 2 expands it, and
iteration 3 is the first to descend — the first actual policy call). -/
theorem searchLoopE_succ (eng : MCTSEngine S A U) (k : Nat) (ms : MCState S A U) :
    searchLoopE eng (k+1) ms =
      match oneIterationE eng ms with
      | .error e => .error e
      | .ok ms2 => searchLoopE eng k ms2 := rfl

theorem C5_ucb_arity_type_error (eng : MCTSEngine S A U)
    (fn : List (PyArg S A U) → Nat) (hpol : eng.selectionPolicy = ucbCallable fn)
    (s : S) (ht : eng.isTerminal s = false)
    (a0 : A) (as : List A) (hacts : eng.expansionPolicy s = a0 :: as)
    (hsim : 1 ≤ eng.simPerIter) (k : Nat) (hk : 3 ≤ k) :
    searchLoopE eng k ⟨MTree.mk s 0 none [], 0⟩ = .error .typeError := by
  -- iteration 1: the childless unvisited root is a leaf; no policy call,
  -- no expansion, just simulation and backpropagation on the root
  have h1 : oneIterationE eng ⟨MTree.mk s 0 none [], 0⟩ =
      .ok (simLoop eng s eng.simPerIter (MTree.mk s 0 none []) [] 0) := by
    unfold oneIterationE
    have hsel0 : selectPath eng (MTree.mk s 0 none ([] : List (A × MTree S A U))) = .ok [] := by
      unfold selectPath
      simp [MTree.isLeaf, MTree.children]
    rw [hsel0]
    dsimp only
    rw [nodeAt_nil]
    dsimp only
    rw [if_neg (by simp [MTree.numVisits])]
    rfl
  set ms1 := simLoop eng s eng.simPerIter (MTree.mk s 0 none []) [] 0 with hms1
  rcases htr : ms1.tree with ⟨s1, n1, u1, cs1⟩
  have hstate1 : s1 = s := by
    have := simLoop_state eng s eng.simPerIter (MTree.mk s 0 none []) [] 0
    rw [← hms1, htr] at this
    exact this
  have hchild1 : cs1 = ([] : List (A × MTree S A U)) := by
    have := simLoop_children_nil eng s eng.simPerIter (MTree.mk s 0 none []) 0
    rw [← hms1, htr] at this
    exact this
  have hvis1 : n1 = eng.simPerIter := by
    have := simLoop_numVisits eng s eng.simPerIter (MTree.mk s 0 none []) [] 0
    rw [← hms1, htr] at this
    simpa [MTree.numVisits] using this
  rw [hstate1, hchild1, hvis1] at htr
  -- iteration 2: the root is a visited non-terminal leaf; it gets expanded
  -- and the first action's child is simulated
  obtain ⟨tl, htl⟩ := expandChildren_cons_head eng s a0 as
  have hexp : expansionE eng (MTree.mk s eng.simPerIter u1 []) [] =
      .ok (MTree.mk s eng.simPerIter u1
            ((a0, MTree.mk (eng.takeAction s a0) 0 none []) :: tl), [0]) := by
    unfold expansionE
    rw [nodeAt_nil]
    dsimp only [MTree.state]
    rw [hacts]
    dsimp only
    rw [htl]
    simp [List.findIdx?, modifyAt, MTree.numVisits, MTree.utilities]
  have h2 : oneIterationE eng ms1 =
      .ok (simLoop eng (eng.takeAction s a0) eng.simPerIter
        (MTree.mk s eng.simPerIter u1
          ((a0, MTree.mk (eng.takeAction s a0) 0 none []) :: tl)) [0] ms1.rng) := by
    unfold oneIterationE
    rw [htr]
    have hsel1 : selectPath eng (MTree.mk s eng.simPerIter u1
        ([] : List (A × MTree S A U))) = .ok [] := by
      unfold selectPath
      simp [MTree.isLeaf, MTree.children]
    rw [hsel1]
    dsimp only
    rw [nodeAt_nil]
    dsimp only
    rw [if_pos (by simp [MTree.numVisits, MTree.state, ht]; omega), hexp]
    dsimp only
    rfl
  set ms2 := simLoop eng (eng.takeAction s a0) eng.simPerIter
    (MTree.mk s eng.simPerIter u1
      ((a0, MTree.mk (eng.takeAction s a0) 0 none []) :: tl)) [0] ms1.rng with hms2
  -- iteration 3: the root now has children and is non-terminal, so
  -- selection calls the policy with three arguments: TypeError
  have hstate2 : ms2.tree.state = s := by
    rw [hms2, simLoop_state]
    rfl
  have hlen2 : ms2.tree.children.length = tl.length + 1 := by
    rw [hms2, simLoop_children_length]
    rfl
  have hleaf2 : ms2.tree.isLeaf eng.isTerminal = false := by
    rw [MTree.isLeaf, hlen2, hstate2, ht]
    simp
  have hsel2 : selectPath eng ms2.tree = .error .typeError := by
    unfold selectPath
    rw [if_neg (by rw [hleaf2]; exact Bool.false_ne_true)]
    rw [hpol]
    unfold callPy ucbCallable
    rw [if_neg (by simp)]
  have h3 : oneIterationE eng ms2 = .error .typeError := by
    unfold oneIterationE
    rw [hsel2]
  obtain ⟨m, rfl⟩ : ∃ m, k = ((m + 1) + 1) + 1 := ⟨k - 3, by omega⟩
  rw [searchLoopE_succ, h1]
  dsimp only
  rw [searchLoopE_succ, h2]
  dsimp only
  rw [searchLoopE_succ, h3]

/-- Witness for C5: a concrete engine whose selection policy is a UCB
callable, on a non-terminal two-action state, with `k = 3`. -/
theorem C5_witness :
    searchLoopE
      { engU with selectionPolicy := ucbCallable (fun _ => 0) } 3
      ⟨MTree.mk () 0 none [], 0⟩ = .error .typeError :=
  C5_ucb_arity_type_error { engU with selectionPolicy := ucbCallable (fun _ => 0) }
    (fun _ => 0) rfl () rfl 0 [1] rfl (by decide) 3 (by decide)

end C5Section

/-!
## Best-score loops: `MCTS.search`'s final selection and `UCB.__call__`

Both code sites run the same Python loop shape over candidates: a running
best score starting at `float('-inf')`, `>` replaces the collected list,
`==` appends, and the tie-break function picks from the final list.
`pyArgmaxGo` is that loop, parametrised by the score `f` and by what is
collected `g` (the action for `search`, the child node for `UCB`). -/

def pyArgmaxGo {α β γ : Type} [LinearOrder β] (f : α → β) (g : α → γ) :
    List α → Option β → List γ → List γ
  | [], _, best => best
  | x :: rest, cur, best =>
    match cur with
    | none => pyArgmaxGo f g rest (some (f x)) [g x]
    | some b =>
      if f x > b then pyArgmaxGo f g rest (some (f x)) [g x]
      else if f x = b then pyArgmaxGo f g rest (some b) (best ++ [g x])
      else pyArgmaxGo f g rest (some b) best

theorem le_foldl_max {β : Type} [LinearOrder β] :
    ∀ (l : List β) (b : β), b ≤ l.foldl max b := by
  intro l
  induction l with
  | nil => intro b; exact le_rfl
  | cons y l ih =>
      intro b
      rw [List.foldl_cons]
      exact (le_max_left b y).trans (ih (max b y))

theorem foldl_max_mem {β : Type} [LinearOrder β] :
    ∀ (l : List β) (b : β), l.foldl max b = b ∨ l.foldl max b ∈ l := by
  intro l
  induction l with
  | nil => intro b; exact Or.inl rfl
  | cons y l ih =>
      intro b
      rw [List.foldl_cons]
      rcases ih (max b y) with h | h
      · rcases max_choice b y with hm | hm
        · exact Or.inl (by rw [h, hm])
        · exact Or.inr (by rw [h, hm]; exact List.mem_cons_self _ _)
      · exact Or.inr (List.mem_cons_of_mem _ h)

/-- The loop collects, in order, exactly the candidates attaining the
maximum score (the accumulator kept only when its score equals the overall
maximum). -/
theorem pyArgmaxGo_acc {α β γ : Type} [LinearOrder β] (f : α → β) (g : α → γ) :
    ∀ (cs : List α) (b : β) (acts : List γ),
      pyArgmaxGo f g cs (some b) acts =
        (if b = (cs.map f).foldl max b then acts else []) ++
          (cs.filter (fun x => decide (f x = (cs.map f).foldl max b))).map g := by
  intro cs
  induction cs with
  | nil => intro b acts; simp [pyArgmaxGo]
  | cons x rest ih =>
      intro b acts
      rw [List.map_cons, List.foldl_cons]
      show (if f x > b then pyArgmaxGo f g rest (some (f x)) [g x]
        else if f x = b then pyArgmaxGo f g rest (some b) (acts ++ [g x])
        else pyArgmaxGo f g rest (some b) acts) = _
      by_cases hgt : f x > b
      · rw [if_pos hgt, ih, max_eq_right hgt.le]
        have hbne : ¬ b = (rest.map f).foldl max (f x) :=
          fun he => absurd (lt_of_lt_of_le hgt (le_foldl_max _ _)) (by rw [← he]; exact lt_irrefl b)
        rw [if_neg hbne, List.filter_cons]
        by_cases hxm : f x = (rest.map f).foldl max (f x)
        · have hd : decide (f x = (rest.map f).foldl max (f x)) = true := by simpa using hxm
          rw [if_pos hxm, if_pos hd, List.map_cons]
          rfl
        · have hd : ¬ decide (f x = (rest.map f).foldl max (f x)) = true := by simpa using hxm
          rw [if_neg hxm, if_neg hd]
      · rw [if_neg hgt]
        have hle : f x ≤ b := not_lt.mp hgt
        rw [max_eq_left hle]
        by_cases heq : f x = b
        · rw [if_pos heq, ih, List.filter_cons]
          by_cases hbm : b = (rest.map f).foldl max b
          · have hd : decide (f x = (rest.map f).foldl max b) = true := by
              simpa using heq.trans hbm
            rw [if_pos hbm, if_pos hbm, if_pos hd, List.map_cons, List.append_assoc]
            rfl
          · have hd : ¬ decide (f x = (rest.map f).foldl max b) = true := by
              simpa using (by rw [heq]; exact hbm : ¬ f x = (rest.map f).foldl max b)
            rw [if_neg hbm, if_neg hbm, if_neg hd]
        · rw [if_neg heq, ih, List.filter_cons]
          have hxm : ¬ f x = (rest.map f).foldl max b := by
            intro he
            exact absurd (he ▸ le_foldl_max (rest.map f) b) (not_le.mpr (lt_of_le_of_ne hle heq))
          have hd : ¬ decide (f x = (rest.map f).foldl max b) = true := by simpa using hxm
          rw [if_neg hd]

/-- For a nonempty candidate list the loop returns exactly the
maximum-score candidates, in order. -/
theorem pyArgmaxGo_spec {α β γ : Type} [LinearOrder β] (f : α → β) (g : α → γ)
    (x : α) (rest : List α) :
    pyArgmaxGo f g (x :: rest) none [] =
      ((x :: rest).filter (fun z =>
        decide (f z = ((x :: rest).map f).foldl max (f x)))).map g := by
  show pyArgmaxGo f g rest (some (f x)) [g x] = _
  rw [pyArgmaxGo_acc, List.map_cons, List.foldl_cons, max_self, List.filter_cons]
  by_cases hxm : f x = (rest.map f).foldl max (f x)
  · have hd : decide (f x = (rest.map f).foldl max (f x)) = true := by simpa using hxm
    rw [if_pos hxm, if_pos hd, List.map_cons]
    rfl
  · have hd : ¬ decide (f x = (rest.map f).foldl max (f x)) = true := by simpa using hxm
    rw [if_neg hxm, if_neg hd]
    rfl

/-- `epsilon = 0.00001`, the division guard of `MCTS.search` and
`UCB.__call__`. -/
def epsilon : ℚ := 1 / 100000

/-- The `childUtilities` computation of `MCTS.search`'s final loop (lines
69–72): `0` when `child.utilities` is falsy, else the sum over
`utilityIdx` when `utilityIdx` is truthy, else the full sum. -/
def childUtilities (uidx : Option (List Nat)) : Option (List ℚ) → ℚ
  | none => 0
  | some l =>
    if l = [] then 0
    else
      match uidx with
      | some idxs => if idxs = [] then l.sum else (idxs.map (fun i => l.getD i 0)).sum
      | none => l.sum

/-- `expectedUtilities = childUtilities/(child.numVisits+epsilon)`. -/
def expectedUtility {S A : Type} (uidx : Option (List Nat)) (c : MTree S A (List ℚ)) : ℚ :=
  childUtilities uidx c.utilities / ((c.numVisits : ℚ) + epsilon)

/-- The final best-action selection of `MCTS.search` (lines 64–80): the
argmax loop over the root's children followed by `breakTies`
(`random.choice` raises `IndexError` on an empty list). -/
def mctsFinalChoice {S A : Type} (uidx : Option (List Nat)) (breakTies : List A → A)
    (children : List (A × MTree S A (List ℚ))) : Except PyErr A :=
  match pyArgmaxGo (fun p => expectedUtility uidx p.2) Prod.fst children none [] with
  | [] => .error .indexError
  | acts => .ok (breakTies acts)

/-- **C6.** After the iteration loop, for every direct child of the root
the engine computes `childUtilities/(child.numVisits + 1e-5)` (sum over
`utilityIdx` or full sum) and returns an action whose child attains the
maximum expected value, ties broken by the caller-supplied tie-break
function; the denominator is positive even for never-visited children, so
no division by zero occurs. -/
theorem C6_final_selection_argmax {S A : Type} (uidx : Option (List Nat))
    (tie : List A → A) (x : A × MTree S A (List ℚ)) (rest : List (A × MTree S A (List ℚ))) :
    mctsFinalChoice uidx tie (x :: rest) =
      .ok (tie (((x :: rest).filter (fun p =>
        decide (expectedUtility uidx p.2 =
          (((x :: rest).map (fun p => expectedUtility uidx p.2)).foldl max
            (expectedUtility uidx x.2))))).map Prod.fst)) ∧
    (∀ p ∈ x :: rest, 0 < ((p.2.numVisits : ℚ) + epsilon)) := by
  constructor
  · unfold mctsFinalChoice
    rw [pyArgmaxGo_spec]
    have hmem : ∃ z ∈ x :: rest,
        expectedUtility uidx z.2 =
          (((x :: rest).map (fun p => expectedUtility uidx p.2)).foldl max
            (expectedUtility uidx x.2)) := by
      rcases foldl_max_mem ((x :: rest).map (fun p => expectedUtility uidx p.2))
          (expectedUtility uidx x.2) with h | h
      · exact ⟨x, List.mem_cons_self _ _, h.symm⟩
      · obtain ⟨z, hz, hze⟩ := List.mem_map.mp h
        exact ⟨z, hz, hze⟩
    obtain ⟨z, hz, hze⟩ := hmem
    have hzf : z ∈ (x :: rest).filter (fun p =>
        decide (expectedUtility uidx p.2 =
          (((x :: rest).map (fun p => expectedUtility uidx p.2)).foldl max
            (expectedUtility uidx x.2)))) :=
      List.mem_filter.mpr ⟨hz, by simp [hze]⟩
    cases hacts : ((x :: rest).filter (fun p =>
        decide (expectedUtility uidx p.2 =
          (((x :: rest).map (fun p => expectedUtility uidx p.2)).foldl max
            (expectedUtility uidx x.2))))).map Prod.fst with
    | nil =>
        exfalso
        rw [List.map_eq_nil_iff] at hacts
        rw [hacts] at hzf
        cases hzf
    | cons a as => rfl
  · intro p _
    have h1 : (0 : ℚ) < epsilon := by norm_num [epsilon]
    have h2 : (0 : ℚ) ≤ (p.2.numVisits : ℚ) := Nat.cast_nonneg _
    linarith

/-!
## The UCB selection policy (`mcts/policy/selection.py`, `UCB.__call__`)

`UCB.__call__(node, depth)` scores each child with
`childUtilities/(n+ε) + c·√(ln N/(n+ε))` where — unlike the spec's formula —
`childUtilities` sums the utilities at the indices of `utilityIdx`
**shifted by `depth % numPlayers`**.  Real-valued because of `math.sqrt` and
`math.log` (hence the noncomputable marker: `ℝ` carries no executable
square root). -/

/-- The shifted `childUtilities` of `UCB.__call__` (lines 31–42). -/
def ucbChildValue (uidx : Option (List Nat)) (depth : Nat) : Option (List ℚ) → ℚ
  | none => 0
  | some l =>
    if l = [] then 0
    else
      match uidx with
      | some idxs =>
        if idxs = [] then l.sum
        else (idxs.map (fun i => l.getD ((i + depth % l.length) % l.length) 0)).sum
      | none => l.sum

/-- The UCB1 score of one child (line 44–45):
`childExpectedUtility + explorationConstant * sqrt(log(node.numVisits)/(child.numVisits+epsilon))`. -/
noncomputable def ucbScoreR {S A : Type} (ec : ℝ) (uidx : Option (List Nat)) (depth : Nat)
    (parentVisits : Nat) (c : MTree S A (List ℚ)) : ℝ :=
  ((ucbChildValue uidx depth c.utilities : ℚ) : ℝ) / ((c.numVisits : ℝ) + ((epsilon : ℚ) : ℝ))
    + ec * Real.sqrt (Real.log (parentVisits : ℝ) / ((c.numVisits : ℝ) + ((epsilon : ℚ) : ℝ)))

/-- `UCB.__call__(node, depth)`: the argmax loop over `node.children`
collecting child **nodes**, then `breakTies`. -/
noncomputable def ucbCall {S A : Type} (ec : ℝ) (uidx : Option (List Nat))
    (breakTies : List (MTree S A (List ℚ)) → MTree S A (List ℚ))
    (node : MTree S A (List ℚ)) (depth : Nat) : MTree S A (List ℚ) :=
  breakTies (pyArgmaxGo (fun p => ucbScoreR ec uidx depth node.numVisits p.2) Prod.snd
    node.children none [])

/-- Modelled from the claim's words: the score formula of spec §4.2.1,
`childValue + explorationConstant * sqrt(ln(node.visitCount)/(child.visitCount+ε))`
with `childValue = (sum over outcomeIndices of the child's accumulated
value, or the full sum when unset)/(child.visitCount+ε)` — **no** index
shifting. -/
noncomputable def ucbClaimScore {S A : Type} (ec : ℝ) (uidx : Option (List Nat))
    (parentVisits : Nat) (c : MTree S A (List ℚ)) : ℝ :=
  ((childUtilities uidx c.utilities : ℚ) : ℝ) / ((c.numVisits : ℝ) + ((epsilon : ℚ) : ℝ))
    + ec * Real.sqrt (Real.log (parentVisits : ℝ) / ((c.numVisits : ℝ) + ((epsilon : ℚ) : ℝ)))

/-- **C4 (amended).** `UCB.__call__(node, depth)` returns a child attaining
the maximum of the *shifted* score `ucbScoreR` (indices shifted by
`depth % numPlayers`), ties broken by the constructor-supplied tie-break
function over the maximum-scoring children in order. -/
theorem C4_amended_ucb_shifted_argmax {S A : Type} (ec : ℝ) (uidx : Option (List Nat))
    (tie : List (MTree S A (List ℚ)) → MTree S A (List ℚ)) (s : S) (nv : Nat)
    (ut : Option (List ℚ)) (x : A × MTree S A (List ℚ))
    (rest : List (A × MTree S A (List ℚ))) (depth : Nat) :
    ucbCall ec uidx tie (MTree.mk s nv ut (x :: rest)) depth =
      tie (((x :: rest).filter (fun p =>
        decide (ucbScoreR ec uidx depth nv p.2 =
          (((x :: rest).map (fun p => ucbScoreR ec uidx depth nv p.2)).foldl max
            (ucbScoreR ec uidx depth nv x.2))))).map Prod.snd) := by
  unfold ucbCall
  rw [show (MTree.mk s nv ut (x :: rest)).children = x :: rest from rfl,
    show (MTree.mk s nv ut (x :: rest)).numVisits = nv from rfl]
  rw [pyArgmaxGo_spec]

/-!
### A concrete node refuting the claimed (unshifted) UCB formula (C4)

Two children with equal visit counts (so their exploration bonuses are the
same term), `utilityIdx = [0]`, `depth = 1`, two players: the code's
shifted index `(0 + 1 % 2) % 2 = 1` reads the *second* utility entry, so
the code prefers `c4child2` `(0, 10)` while the claim's unshifted formula
prefers `c4child1` `(10, 0)`. -/

def c4child1 : MTree Nat Nat (List ℚ) := .mk 1 1 (some [10, 0]) []

def c4child2 : MTree Nat Nat (List ℚ) := .mk 2 1 (some [0, 10]) []

def c4node : MTree Nat Nat (List ℚ) := .mk 0 2 (some [0, 0]) [(1, c4child1), (2, c4child2)]

/-- **C4 (counterexample).** On `c4node` at depth 1, `UCB.__call__` (with
tie-break "first of the list") returns `c4child2`, yet under the claim's
score formula `c4child2` is strictly beaten by `c4child1` — the returned
child does not attain the maximum of the claimed score. -/
theorem C4_counterexample :
    ucbCall 1 (some [0]) (fun l => l.headD (MTree.mk 0 0 none [])) c4node 1 = c4child2 ∧
    ucbClaimScore 1 (some [0]) 2 c4child2 < ucbClaimScore 1 (some [0]) 2 c4child1 ∧
    c4child2 ≠ c4child1 := by
  have hden : (0 : ℝ) < ((1 : Nat) : ℝ) + ((epsilon : ℚ) : ℝ) := by
    norm_num [epsilon]
  have hfrac : ((0 : ℚ) : ℝ) / (((1 : Nat) : ℝ) + ((epsilon : ℚ) : ℝ)) <
      ((10 : ℚ) : ℝ) / (((1 : Nat) : ℝ) + ((epsilon : ℚ) : ℝ)) := by
    rw [show ((0 : ℚ) : ℝ) = 0 from by norm_num, zero_div]
    exact div_pos (by norm_num) hden
  have hv1 : ucbChildValue (some [0]) 1 (some [10, 0]) = 0 := by
    simp [ucbChildValue, List.getD]
  have hv2 : ucbChildValue (some [0]) 1 (some [0, 10]) = 10 := by
    simp [ucbChildValue, List.getD]
  have hgtscore : ucbScoreR (1 : ℝ) (some [0]) 1 2 c4child1 <
      ucbScoreR (1 : ℝ) (some [0]) 1 2 c4child2 := by
    unfold ucbScoreR
    rw [show c4child1.utilities = some [10, 0] from rfl,
      show c4child2.utilities = some [0, 10] from rfl, hv1, hv2,
      show c4child1.numVisits = 1 from rfl, show c4child2.numVisits = 1 from rfl]
    exact add_lt_add_right hfrac _
  refine ⟨?_, ?_, ?_⟩
  · unfold ucbCall
    generalize hF : (fun p : Nat × MTree Nat Nat (List ℚ) =>
      ucbScoreR (1 : ℝ) (some [0]) 1 c4node.numVisits p.2) = F
    have hF1 : F (1, c4child1) = ucbScoreR (1 : ℝ) (some [0]) 1 2 c4child1 := by
      rw [← hF]
      rfl
    have hF2 : F (2, c4child2) = ucbScoreR (1 : ℝ) (some [0]) 1 2 c4child2 := by
      rw [← hF]
      rfl
    have e2 : pyArgmaxGo F Prod.snd c4node.children none [] =
        if F (2, c4child2) > F (1, c4child1) then
          pyArgmaxGo F Prod.snd [] (some (F (2, c4child2))) [c4child2]
        else if F (2, c4child2) = F (1, c4child1) then
          pyArgmaxGo F Prod.snd [] (some (F (1, c4child1))) ([c4child1] ++ [c4child2])
        else pyArgmaxGo F Prod.snd [] (some (F (1, c4child1))) [c4child1] := rfl
    rw [e2, if_pos (by rw [hF1, hF2]; exact hgtscore)]
    rfl
  · unfold ucbClaimScore
    have hc1 : childUtilities (some [0]) (some [10, 0]) = 10 := by
      simp [childUtilities, List.getD]
    have hc2 : childUtilities (some [0]) (some [0, 10]) = 0 := by
      simp [childUtilities, List.getD]
    rw [show c4child1.utilities = some [10, 0] from rfl,
      show c4child2.utilities = some [0, 10] from rfl, hc1, hc2,
      show c4child1.numVisits = 1 from rfl, show c4child2.numVisits = 1 from rfl]
    exact add_lt_add_right hfrac _
  · intro h
    exact absurd (congrArg MTree.state h) (by decide)

/-!
## The MNK game (`mcts/applications/mnk.py`)

`MNKAction` carries a player sign and `(m, n)` coordinates (Python ints,
hence `Int` — `takeAction` explicitly checks `action.m < 0`).  `MNKState`
carries the configuration, the circular player rotation (its head is the
current player), the board, the cached `_isTerminal` flag, the remaining
move count (an int decremented on every action) and the last action.  The
cached reward tuple is not modelled: no claim concerns `getReward`.
Python exceptions are `Except` errors: the two `raise Exception(...)` sites
of `takeAction` (distinguished by their messages), the constructor checks,
and the `IndexError` of `playerSignsRotation[0]` on an empty rotation.
Board reads `board[i][j]` are totalised with the empty sign as default;
they are guarded in the source (bounds short-circuit / scan ranges clamped
to the board), so the default is never consulted on states satisfying the
dimension invariant. -/

structure MNKAction (σ : Type) where
  playerSign : σ
  m : Int
  n : Int
deriving DecidableEq, Repr

structure MNKState (σ : Type) where
  m : Nat
  n : Nat
  k : Nat
  playerSigns : List σ
  playerSignsRotation : List σ
  emptySign : σ
  lastAction : Option (MNKAction σ)
  isTerminalFlag : Bool
  remainingMoves : Int
  board : List (List σ)
deriving DecidableEq, Repr

inductive MNKErr where
  | configError | terminalStateError | illegalActionError | indexError
deriving DecidableEq, Repr

section MNK

variable {σ : Type} [DecidableEq σ]

/-- The `MNK.__init__` constructor: validates `k <= min(m, n)` and that the
empty sign is not a player sign, then builds the empty board. -/
def MNK.init (m n k : Nat) (playerSigns : List σ) (emptySign : σ) :
    Except MNKErr (MNKState σ) :=
  if k > min m n then .error .configError
  else if emptySign ∈ playerSigns then .error .configError
  else .ok
    { m := m, n := n, k := k, playerSigns := playerSigns,
      playerSignsRotation := playerSigns, emptySign := emptySign, lastAction := none,
      isTerminalFlag := false, remainingMoves := (m * n : Int),
      board := List.replicate m (List.replicate n emptySign) }

/-- `self.board[i][j]`, totalised (see the section comment). -/
def boardGet (board : List (List σ)) (empty : σ) (i j : Int) : σ :=
  (board.getD i.toNat []).getD j.toNat empty

/-- One `while` scan of `MNK.checkWinner`: walk the cells, incrementing the
running count on the player's sign and resetting it otherwise; report a win
as soon as the count reaches `k` (checked after each step, so `k = 0` hits
on the first cell whose updated count is 0). -/
def scanRun (sign : σ) (k : Nat) : List σ → Nat → Bool
  | [], _ => false
  | c :: rest, run =>
    let run2 := if c = sign then run + 1 else 0
    if run2 = k then true else scanRun sign k rest run2

/-- The inclusive integer range `[lo..hi]` of a clamped scan. -/
def intRange (lo hi : Int) : List Int :=
  (List.range (hi - lo + 1).toNat).map (fun t => lo + (t : Int))

/-- `MNK.checkWinner` given the last action: the four scans (row, column,
and the two diagonals), each over the window of `2k-1` cells around the
last move clamped to the board. -/
def checkWinnerB (s : MNKState σ) (la : MNKAction σ) : Bool :=
  let leftMost := max 0 (la.n - ((s.k : Int) - 1))
  let rightMost := min ((s.n : Int) - 1) (la.n + ((s.k : Int) - 1))
  let topMost := max 0 (la.m - ((s.k : Int) - 1))
  let bottomMost := min ((s.m : Int) - 1) (la.m + ((s.k : Int) - 1))
  let rowCells := (intRange leftMost rightMost).map
    (fun l => boardGet s.board s.emptySign la.m l)
  let colCells := (intRange topMost bottomMost).map
    (fun t => boardGet s.board s.emptySign t la.n)
  let minDist1 := min (la.m - topMost) (la.n - leftMost)
  let d1len := min (bottomMost - (la.m - minDist1)) (rightMost - (la.n - minDist1)) + 1
  let diag1 := (List.range d1len.toNat).map
    (fun t => boardGet s.board s.emptySign (la.m - minDist1 + t) (la.n - minDist1 + t))
  let minDist2 := min (la.m - topMost) (rightMost - la.n)
  let d2len := min (bottomMost - (la.m - minDist2)) ((la.n + minDist2) - leftMost) + 1
  let diag2 := (List.range d2len.toNat).map
    (fun t => boardGet s.board s.emptySign (la.m - minDist2 + t) (la.n + minDist2 - t))
  scanRun la.playerSign s.k rowCells 0 || scanRun la.playerSign s.k colCells 0 ||
    scanRun la.playerSign s.k diag1 0 || scanRun la.playerSign s.k diag2 0

/-- `MNK.isTerminal` as a pure boolean (the source also caches the result
in `_isTerminal` and computes the reward; the boolean is unchanged). -/
def isTerminalB (s : MNKState σ) : Bool :=
  if s.isTerminalFlag then true
  else
    match s.lastAction with
    | none => false
    | some la => if s.remainingMoves ≤ 0 then true else checkWinnerB s la

/-- The list comprehension of `MNK.getActions`: one action per empty cell,
in row-major order, for the player sign `cur`. -/
def actList (s : MNKState σ) (cur : σ) : List (MNKAction σ) :=
  (List.range s.m).flatMap (fun i =>
    (List.range s.n).filterMap (fun j =>
      if (s.board.getD i []).getD j s.emptySign = s.emptySign
      then some ⟨cur, (i : Int), (j : Int)⟩ else none))

/-- `MNK.getActions`: the comprehension for the current player
(`playerSignsRotation[0]`, an `IndexError` when the rotation is empty). -/
def getActions (s : MNKState σ) : Except MNKErr (List (MNKAction σ)) :=
  match s.playerSignsRotation.head? with
  | none => .error .indexError
  | some cur => .ok (actList s cur)

/-- `MNK.takeAction(action)` (with `preserveState=True`; the in-place
variant computes the same state): terminal states and illegal actions
raise; otherwise place the sign, rotate the player queue, decrement the
remaining-move count and record the action. -/
def takeAction (s : MNKState σ) (a : MNKAction σ) : Except MNKErr (MNKState σ) :=
  if isTerminalB s then .error .terminalStateError
  else
    match s.playerSignsRotation.head? with
    | none => .error .indexError
    | some cur =>
      if a.m < 0 ∨ (s.m : Int) ≤ a.m ∨ a.n < 0 ∨ (s.n : Int) ≤ a.n ∨ a.playerSign ≠ cur ∨
          boardGet s.board s.emptySign a.m a.n ≠ s.emptySign then
        .error .illegalActionError
      else
        .ok { s with
          board := s.board.set a.m.toNat
            ((s.board.getD a.m.toNat []).set a.n.toNat a.playerSign),
          playerSignsRotation := s.playerSignsRotation.tail ++ [a.playerSign],
          remainingMoves := s.remainingMoves - 1,
          lastAction := some a }

/-- The states reachable from a successfully constructed game by legal
actions. -/
inductive Reachable : MNKState σ → Prop where
  | init (m n k : Nat) (ps : List σ) (es : σ) (s : MNKState σ) :
      MNK.init m n k ps es = .ok s → Reachable s
  | step (s : MNKState σ) (a : MNKAction σ) (s' : MNKState σ) :
      Reachable s → takeAction s a = .ok s' → Reachable s'

/-- Number of empty cells on a board. -/
def countEmpty (board : List (List σ)) (empty : σ) : Nat :=
  (board.map (fun row => row.count empty)).sum

/-- State invariant maintained by the constructor and `takeAction`: the
board has the advertised dimensions, `remainingMoves` counts the empty
cells, the rotation is a full roster of player signs, the empty sign is
not a player sign, and before the first move every cell is empty. -/
def MNKInv (s : MNKState σ) : Prop :=
  s.board.length = s.m ∧
  (∀ row ∈ s.board, row.length = s.n) ∧
  s.remainingMoves = (countEmpty s.board s.emptySign : Int) ∧
  s.playerSignsRotation.length = s.playerSigns.length ∧
  (∀ x ∈ s.playerSignsRotation, x ∈ s.playerSigns) ∧
  s.emptySign ∉ s.playerSigns ∧
  (s.lastAction = none → s.remainingMoves = ((s.m : Int) * s.n))

theorem countEmpty_replicate (m n : Nat) (es : σ) :
    countEmpty (List.replicate m (List.replicate n es)) es = m * n := by
  simp [countEmpty]

theorem init_inv {m n k : Nat} {ps : List σ} {es : σ} {s : MNKState σ}
    (h : MNK.init m n k ps es = .ok s) : MNKInv s := by
  unfold MNK.init at h
  by_cases h1 : k > min m n
  · rw [if_pos h1] at h; exact absurd h (by simp)
  rw [if_neg h1] at h
  by_cases h2 : es ∈ ps
  · rw [if_pos h2] at h; exact absurd h (by simp)
  rw [if_neg h2] at h
  cases h
  refine ⟨by simp, ?_, ?_, rfl, fun x hx => hx, h2, fun _ => by push_cast; ring⟩
  · intro row hrow
    rw [List.eq_of_mem_replicate hrow]
    simp
  · rw [countEmpty_replicate]
    push_cast
    ring

theorem sum_map_set {α : Type} (l : List α) (i : Nat) (x d : α) (f : α → Nat)
    (hi : i < l.length) :
    ((l.set i x).map f).sum + f (l.getD i d) = (l.map f).sum + f x := by
  induction l generalizing i with
  | nil => simp at hi
  | cons a t ih =>
    cases i with
    | zero => simp [List.set]; omega
    | succ i =>
      have := ih i (by simpa using hi)
      simp only [List.set, List.map_cons, List.sum_cons, List.getD_cons_succ]
      omega

theorem count_set_of_eq {row : List σ} {j : Nat} {x e : σ} (hj : j < row.length)
    (hcell : row.getD j e = e) (hx : x ≠ e) :
    (row.set j x).count e + 1 = row.count e := by
  induction row generalizing j with
  | nil => simp at hj
  | cons a t ih =>
    cases j with
    | zero =>
      simp only [List.getD_cons_zero] at hcell
      subst hcell
      simp [List.set, List.count_cons, hx]
    | succ j =>
      have := ih (by simpa using hj) (by simpa using hcell)
      simp only [List.set, List.count_cons]
      omega

theorem countEmpty_set {board : List (List σ)} {i j : Nat} {x e : σ}
    (hi : i < board.length) (hj : j < (board.getD i []).length)
    (hcell : (board.getD i []).getD j e = e) (hx : x ≠ e) :
    countEmpty (board.set i ((board.getD i []).set j x)) e + 1 = countEmpty board e := by
  have h1 := sum_map_set board i ((board.getD i []).set j x) []
    (fun row => row.count e) hi
  have h2 := count_set_of_eq hj hcell hx
  unfold countEmpty
  simp only at h1
  omega

theorem takeAction_inv {s : MNKState σ} {a : MNKAction σ} {s' : MNKState σ}
    (hs : MNKInv s) (h : takeAction s a = .ok s') : MNKInv s' := by
  obtain ⟨hlen, hrows, hrem, hrotlen, hrotmem, hemp, _⟩ := hs
  unfold takeAction at h
  by_cases ht : isTerminalB s = true
  · rw [if_pos ht] at h; exact absurd h (by simp)
  rw [if_neg ht] at h
  cases hhd : s.playerSignsRotation.head? with
  | none => rw [hhd] at h; exact absurd h (by simp)
  | some cur =>
    rw [hhd] at h
    dsimp only at h
    by_cases hg : a.m < 0 ∨ (s.m : Int) ≤ a.m ∨ a.n < 0 ∨ (s.n : Int) ≤ a.n ∨
        a.playerSign ≠ cur ∨ boardGet s.board s.emptySign a.m a.n ≠ s.emptySign
    · rw [if_pos hg] at h; exact absurd h (by simp)
    rw [if_neg hg] at h
    push_neg at hg
    obtain ⟨hm0, hmlt, hn0, hnlt, hsign, hcell⟩ := hg
    cases h
    have hrotne : s.playerSignsRotation ≠ [] := by
      intro h0; rw [h0] at hhd; exact absurd hhd (by simp)
    have hcur : cur ∈ s.playerSignsRotation := by
      cases hq : s.playerSignsRotation with
      | nil => exact absurd hq hrotne
      | cons y t => rw [hq] at hhd; simp at hhd; simp [hq, hhd]
    have hsignmem : a.playerSign ∈ s.playerSigns := by
      rw [hsign]; exact hrotmem cur hcur
    have hsne : a.playerSign ≠ s.emptySign := fun hq => hemp (hq ▸ hsignmem)
    have hi : a.m.toNat < s.board.length := by rw [hlen]; omega
    have hrowmem : s.board.getD a.m.toNat [] ∈ s.board := by
      rw [List.getD_eq_getElem s.board [] hi]
      exact List.getElem_mem hi
    have hrlen : (s.board.getD a.m.toNat []).length = s.n :=
      hrows _ hrowmem
    have hj : a.n.toNat < (s.board.getD a.m.toNat []).length := by rw [hrlen]; omega
    have hcell' : (s.board.getD a.m.toNat []).getD a.n.toNat s.emptySign = s.emptySign := by
      simpa [boardGet] using hcell
    have hce := countEmpty_set hi hj hcell' hsne
    refine ⟨?_, ?_, ?_, ?_, ?_, hemp, ?_⟩
    · simpa using hlen
    · intro row hrow
      rcases List.mem_or_eq_of_mem_set hrow with hmem | hq
      · exact hrows row hmem
      · rw [hq]; simpa using hrlen
    · dsimp only
      omega
    · have : s.playerSignsRotation.tail.length = s.playerSignsRotation.length - 1 :=
        List.length_tail _
      have hpos : 0 < s.playerSignsRotation.length := List.length_pos.mpr hrotne
      simp only [List.length_append, List.length_cons, List.length_nil, this]
      omega
    · intro x hx
      dsimp only at hx
      rcases List.mem_append.mp hx with hmem | hmem
      · exact hrotmem x (List.mem_of_mem_tail hmem)
      · simp at hmem
        rw [hmem]; exact hsignmem
    · intro hq; exact absurd hq (by simp)

theorem reachable_inv {s : MNKState σ} (h : Reachable s) : MNKInv s := by
  induction h with
  | init m n k ps es s h => exact init_inv h
  | step s a s' _ h ih => exact takeAction_inv ih h

theorem getActions_eq (s : MNKState σ) (cur : σ)
    (hhd : s.playerSignsRotation.head? = some cur) :
    getActions s = .ok (actList s cur) := by
  unfold getActions
  rw [hhd]

theorem mem_actList {s : MNKState σ} {cur : σ} {i j : Nat} (hi : i < s.m) (hj : j < s.n)
    (hcell : (s.board.getD i []).getD j s.emptySign = s.emptySign) :
    (⟨cur, (i : Int), (j : Int)⟩ : MNKAction σ) ∈ actList s cur := by
  unfold actList
  refine List.mem_flatMap.mpr ⟨i, List.mem_range.mpr hi, ?_⟩
  refine List.mem_filterMap.mpr ⟨j, List.mem_range.mpr hj, ?_⟩
  rw [if_pos hcell]

theorem mem_actList_elim {s : MNKState σ} {cur : σ} {a : MNKAction σ}
    (h : a ∈ actList s cur) :
    ∃ i j : Nat, i < s.m ∧ j < s.n ∧
      (s.board.getD i []).getD j s.emptySign = s.emptySign ∧
      a = ⟨cur, (i : Int), (j : Int)⟩ := by
  unfold actList at h
  obtain ⟨i, hi, h2⟩ := List.mem_flatMap.mp h
  obtain ⟨j, hj, h3⟩ := List.mem_filterMap.mp h2
  refine ⟨i, j, List.mem_range.mp hi, List.mem_range.mp hj, ?_, ?_⟩
  · by_cases hc : (s.board.getD i []).getD j s.emptySign = s.emptySign
    · exact hc
    · rw [if_neg hc] at h3; exact absurd h3 (by simp)
  · by_cases hc : (s.board.getD i []).getD j s.emptySign = s.emptySign
    · rw [if_pos hc] at h3
      exact (Option.some_inj.mp h3).symm
    · rw [if_neg hc] at h3; exact absurd h3 (by simp)

theorem actList_nodup (s : MNKState σ) (cur : σ) : (actList s cur).Nodup := by
  unfold actList
  rw [List.nodup_flatMap]
  constructor
  · intro i _
    refine List.Nodup.filterMap ?_ (List.nodup_range s.n)
    intro a b c hca hcb
    by_cases hpa : (s.board.getD i []).getD a s.emptySign = s.emptySign
    · rw [if_pos hpa] at hca
      by_cases hpb : (s.board.getD i []).getD b s.emptySign = s.emptySign
      · rw [if_pos hpb] at hcb
        have h1 : c = (⟨cur, (i : Int), (a : Int)⟩ : MNKAction σ) :=
          (Option.mem_some_iff.mp hca).symm
        have h2 : c = (⟨cur, (i : Int), (b : Int)⟩ : MNKAction σ) :=
          (Option.mem_some_iff.mp hcb).symm
        have := h1 ▸ h2
        have hn : ((a : Int)) = ((b : Int)) := congrArg MNKAction.n this
        omega
      · rw [if_neg hpb] at hcb; exact absurd hcb (by simp)
    · rw [if_neg hpa] at hca; exact absurd hca (by simp)
  · refine List.Pairwise.imp ?_ (List.pairwise_lt_range s.m)
    intro i i' hii x hx1 hx2
    obtain ⟨j1, _, hj1⟩ := List.mem_filterMap.mp hx1
    obtain ⟨j2, _, hj2⟩ := List.mem_filterMap.mp hx2
    have hm1 : x.m = (i : Int) := by
      by_cases hc : (s.board.getD i []).getD j1 s.emptySign = s.emptySign
      · rw [if_pos hc] at hj1
        rw [← Option.some_inj.mp hj1]
      · rw [if_neg hc] at hj1; exact absurd hj1 (by simp)
    have hm2 : x.m = (i' : Int) := by
      by_cases hc : (s.board.getD i' []).getD j2 s.emptySign = s.emptySign
      · rw [if_pos hc] at hj2
        rw [← Option.some_inj.mp hj2]
      · rw [if_neg hc] at hj2; exact absurd hj2 (by simp)
    rw [hm1] at hm2
    omega

theorem exists_of_count_pos {row : List σ} {e : σ} (h : 0 < row.count e) :
    ∃ j, j < row.length ∧ row.getD j e = e := by
  have hmem : e ∈ row := List.count_pos_iff.mp h
  obtain ⟨⟨j, hj⟩, hget⟩ := List.mem_iff_get.mp hmem
  refine ⟨j, hj, ?_⟩
  rw [List.getD_eq_getElem row e hj]
  simpa [List.get_eq_getElem] using hget

theorem exists_of_countEmpty_pos {board : List (List σ)} {e : σ}
    (h : 0 < countEmpty board e) :
    ∃ i, i < board.length ∧ 0 < (board.getD i []).count e := by
  induction board with
  | nil => simp [countEmpty] at h
  | cons r t ih =>
    by_cases hr : 0 < r.count e
    · exact ⟨0, by simp, by simpa using hr⟩
    · have ht : 0 < countEmpty t e := by
        unfold countEmpty at h ⊢
        simp only [List.map_cons, List.sum_cons] at h
        omega
      obtain ⟨i, hi, hc⟩ := ih ht
      exact ⟨i + 1, by simpa using Nat.succ_lt_succ hi, by simpa using hc⟩

theorem countEmpty_pos_of_nonterminal {s : MNKState σ} (hinv : MNKInv s)
    (hm : 1 ≤ s.m) (hn : 1 ≤ s.n) (hterm : isTerminalB s = false) :
    0 < countEmpty s.board s.emptySign := by
  obtain ⟨_, _, hrem, _, _, _, hlast⟩ := hinv
  unfold isTerminalB at hterm
  cases hfl : s.isTerminalFlag with
  | true => rw [hfl] at hterm; simp at hterm
  | false =>
    rw [hfl] at hterm
    simp only [Bool.false_eq_true, if_false] at hterm
    cases hla : s.lastAction with
    | none =>
      have hmn : (1 : Int) ≤ (s.m : Int) * s.n := by
        have := Nat.mul_le_mul hm hn
        omega
      have := hlast hla
      omega
    | some la =>
      rw [hla] at hterm
      dsimp only at hterm
      by_cases hr : s.remainingMoves ≤ 0
      · rw [if_pos hr] at hterm; simp at hterm
      · omega

theorem takeAction_mem_ok {s : MNKState σ} {cur : σ}
    (hterm : isTerminalB s = false)
    (hhd : s.playerSignsRotation.head? = some cur) {i j : Nat}
    (hi : i < s.m) (hj : j < s.n)
    (hcell : (s.board.getD i []).getD j s.emptySign = s.emptySign) :
    ∃ s', takeAction s (⟨cur, (i : Int), (j : Int)⟩ : MNKAction σ) = .ok s' := by
  have hg : ¬(((i : Int)) < 0 ∨ (s.m : Int) ≤ (i : Int) ∨ ((j : Int)) < 0 ∨
      (s.n : Int) ≤ (j : Int) ∨ cur ≠ cur ∨
      boardGet s.board s.emptySign (i : Int) (j : Int) ≠ s.emptySign) := by
    push_neg
    refine ⟨by omega, by omega, by omega, by omega, rfl, ?_⟩
    simpa [boardGet] using hcell
  unfold takeAction
  rw [if_neg (by rw [hterm]; simp), hhd]
  dsimp only
  rw [if_neg hg]
  exact ⟨_, rfl⟩

/-- The initial state of a 0×0 game with k = 0: the constructor accepts it
(`0 > min 0 0` is false), it is not terminal (no last action, flag unset),
and the board has no cells. -/
def c9state : MNKState Nat :=
  { m := 0, n := 0, k := 0, playerSigns := [1, 2], playerSignsRotation := [1, 2],
    emptySign := 0, lastAction := none, isTerminalFlag := false,
    remainingMoves := 0, board := [] }

/-- C9 counterexample: the initial state of `MNK(0, 0, 0, [1, 2], 0)` is a
reachable non-terminal state, yet `getActions` returns the empty list —
refuting the claim that every reachable non-terminal state has a non-empty
action list. -/
theorem C9_counterexample :
    MNK.init 0 0 0 [1, 2] (0 : Nat) = .ok c9state ∧
    Reachable c9state ∧
    isTerminalB c9state = false ∧
    getActions c9state = .ok ([] : List (MNKAction Nat)) :=
  ⟨rfl, Reachable.init 0 0 0 [1, 2] 0 c9state rfl, rfl, rfl⟩

/-- C9 (amended): the MNK action contract. (1) `takeAction` on a terminal
state raises the terminal-state exception; (2) on a non-terminal state it
raises the illegal-action exception when the coordinates are out of
bounds, the acting player is not the current player, or the target cell is
occupied; (3) for every reachable non-terminal state of a game with at
least one row, one column and one player, `getActions` succeeds with a
non-empty duplicate-free list, and `takeAction` succeeds on every action
in it. (The source raises plain `Exception`s distinguished by message, not
dedicated `TerminalStateError`/`IllegalActionError` classes; part (3)
needs the well-formedness hypotheses: a 0×0 game refutes the unqualified
claim.) -/
theorem C9_amended_mnk_contract {σ : Type} [DecidableEq σ] :
    (∀ (s : MNKState σ) (a : MNKAction σ), isTerminalB s = true →
      takeAction s a = .error .terminalStateError) ∧
    (∀ (s : MNKState σ) (a : MNKAction σ) (cur : σ), isTerminalB s = false →
      s.playerSignsRotation.head? = some cur →
      (a.m < 0 ∨ (s.m : Int) ≤ a.m ∨ a.n < 0 ∨ (s.n : Int) ≤ a.n ∨
        a.playerSign ≠ cur ∨ boardGet s.board s.emptySign a.m a.n ≠ s.emptySign) →
      takeAction s a = .error .illegalActionError) ∧
    (∀ s : MNKState σ, Reachable s → 1 ≤ s.m → 1 ≤ s.n → s.playerSigns ≠ [] →
      isTerminalB s = false →
      ∃ acts, getActions s = .ok acts ∧ acts ≠ [] ∧ acts.Nodup ∧
        ∀ a ∈ acts, ∃ s', takeAction s a = .ok s') := by
  refine ⟨?_, ?_, ?_⟩
  · intro s a h
    unfold takeAction
    rw [if_pos h]
  · intro s a cur hterm hhd hg
    unfold takeAction
    rw [if_neg (by rw [hterm]; simp), hhd]
    dsimp only
    rw [if_pos hg]
  · intro s hreach hm hn hps hterm
    have hinv := reachable_inv hreach
    obtain ⟨hlen, hrows, hrem, hrotlen, hrotmem, hemp, hlast⟩ := hinv
    have hrotne : s.playerSignsRotation ≠ [] := by
      intro h0
      rw [h0] at hrotlen
      exact hps (List.length_eq_zero.mp hrotlen.symm)
    obtain ⟨cur, hhd⟩ : ∃ cur, s.playerSignsRotation.head? = some cur := by
      cases hq : s.playerSignsRotation with
      | nil => exact absurd hq hrotne
      | cons y t => exact ⟨y, rfl⟩
    refine ⟨actList s cur, getActions_eq s cur hhd, ?_, actList_nodup s cur, ?_⟩
    · have hce := countEmpty_pos_of_nonterminal
        ⟨hlen, hrows, hrem, hrotlen, hrotmem, hemp, hlast⟩ hm hn hterm
      obtain ⟨i, hi, hic⟩ := exists_of_countEmpty_pos hce
      obtain ⟨j, hj, hcell⟩ := exists_of_count_pos hic
      have hrowmem : s.board.getD i [] ∈ s.board := by
        rw [List.getD_eq_getElem s.board [] hi]
        exact List.getElem_mem hi
      have hi' : i < s.m := by rw [← hlen]; exact hi
      have hj' : j < s.n := by rw [← hrows _ hrowmem]; exact hj
      exact List.ne_nil_of_mem (mem_actList hi' hj' hcell)
    · intro a ha
      obtain ⟨i, j, hi, hj, hcell, rfl⟩ := mem_actList_elim ha
      exact takeAction_mem_ok hterm hhd hi hj hcell

/-- A terminal 1×1 position (the cached terminal flag is set). -/
def c9termState : MNKState Nat :=
  { m := 1, n := 1, k := 1, playerSigns := [5], playerSignsRotation := [5],
    emptySign := 0, lastAction := none, isTerminalFlag := true,
    remainingMoves := 1, board := [[0]] }

/-- The initial state of the 1×1 one-player game `MNK(1, 1, 1, [5], 0)`. -/
def c9playState : MNKState Nat :=
  { m := 1, n := 1, k := 1, playerSigns := [5], playerSignsRotation := [5],
    emptySign := 0, lastAction := none, isTerminalFlag := false,
    remainingMoves := 1, board := [[0]] }

theorem C9_witness :
    takeAction c9termState ⟨5, 0, 0⟩ = .error MNKErr.terminalStateError ∧
    takeAction c9playState ⟨5, -1, 0⟩ = .error MNKErr.illegalActionError ∧
    ∃ acts, getActions c9playState = .ok acts ∧ acts ≠ [] ∧ acts.Nodup ∧
      ∀ a ∈ acts, ∃ s', takeAction c9playState a = .ok s' := by
  obtain ⟨h1, h2, h3⟩ := C9_amended_mnk_contract (σ := Nat)
  refine ⟨h1 c9termState ⟨5, 0, 0⟩ rfl,
    h2 c9playState ⟨5, -1, 0⟩ 5 rfl rfl (Or.inl (by decide)),
    h3 c9playState (Reachable.init 1 1 1 [5] 0 c9playState rfl)
      (by decide) (by decide) (by decide) rfl⟩

end MNK

/-!
## Iterative deepening (`MinimaxIDS`, minimax.py lines 167–236)

`MinimaxIDS.search` spawns a child process running `_search`, joins it for
`self.time` seconds, terminates it if still alive, drains the shared queue
(keeping the last item), and falls back to
`self.expansionPolicy(state, 0, self.cache)[0]` when nothing (or a falsy
action) was drained.

Wall-clock reads are modelled by a sequence `clock : Nat → ℚ` of observed
`time.time()` values, consumed one per read: read 0 computes
`endTime = time.time() + self.time`, read `i ≥ 1` is the `i`-th loop
check.  Real time never decreases, so the model quantifies over monotone
clocks.  `searchAt d` abstracts the action `super().search` returns at
cutoff depth `d` (its value is irrelevant to C10: with budget 0 the loop
body never runs).  Forcible termination of the child is modelled by the
parent seeing an arbitrary prefix of the queue the child would write: the
kill can land between any two `q.put` calls.  The fallback
`if not action:` tests Python truthiness of the drained object, modelled
by `truthy`. -/

section IDS

variable {S A : Type}

/-- The `while time.time() < endTime and self.depth <= self.maxDepth`
loop of `MinimaxIDS._search`: each iteration checks the clock, runs one
depth-limited search and commits its action to the queue.  Fuelled by the
remaining depth budget (the loop runs at most `maxDepth` times). -/
def idsChildGo (searchAt : Nat → A) (clock : Nat → ℚ) (endTime : ℚ)
    (maxDepth : Nat) : Nat → Nat → Nat → List A
  | _, _, 0 => []
  | depth, tick, fuel + 1 =>
    if clock tick < endTime ∧ depth ≤ maxDepth then
      searchAt depth :: idsChildGo searchAt clock endTime maxDepth (depth + 1) (tick + 1) fuel
    else []

/-- Everything `_search` would put on the queue if never killed:
`endTime = time.time() + self.time`, depths from 1. -/
def idsChildCommits (searchAt : Nat → A) (clock : Nat → ℚ) (t : ℚ)
    (maxDepth : Nat) : List A :=
  idsChildGo searchAt clock (clock 0 + t) maxDepth 1 1 (maxDepth + 1)

/-- `MinimaxIDS.search`: drain the queue written by the (possibly killed
after `killPrefix` commits) child, keep the last action; fall back to the
first expansion-policy action when nothing truthy was drained
(`IndexError` when the policy returns no action at all). -/
def idsSearch (expansionPolicy : S → Nat → List A) (truthy : A → Bool)
    (searchAt : Nat → A) (clock : Nat → ℚ) (t : ℚ) (maxDepth killPrefix : Nat)
    (state : S) : Except PyErr A :=
  let commits := (idsChildCommits searchAt clock t maxDepth).take killPrefix
  let act : Option A :=
    match commits.getLast? with
    | some a => if truthy a then some a else none
    | none => none
  match act with
  | some a => .ok a
  | none =>
    match expansionPolicy state 0 with
    | [] => .error .indexError
    | a :: _ => .ok a

/-- C10: with a wall-clock budget of 0 seconds the child's loop guard
`time.time() < endTime` fails at its very first check (the clock never
decreases), so no depth commits an action, and `MinimaxIDS.search`
returns the first expansion-policy action at depth 0 without raising —
for every monotone clock, every kill point and every depth limit,
provided the expansion policy offers at least one action. -/
theorem C10_ids_zero_budget_fallback (expansionPolicy : S → Nat → List A)
    (truthy : A → Bool) (searchAt : Nat → A) (clock : Nat → ℚ)
    (hmono : ∀ i j, i ≤ j → clock i ≤ clock j) (maxDepth killPrefix : Nat)
    (state : S) (a0 : A) (rest : List A)
    (hexp : expansionPolicy state 0 = a0 :: rest) :
    idsSearch expansionPolicy truthy searchAt clock 0 maxDepth killPrefix state =
      .ok a0 := by
  have hguard : ¬(clock 1 < clock 0 + 0 ∧ 1 ≤ maxDepth) := by
    rintro ⟨hlt, -⟩
    rw [add_zero] at hlt
    exact absurd (hmono 0 1 (by omega)) (not_le.mpr hlt)
  have hcommits : idsChildCommits searchAt clock 0 maxDepth = ([] : List A) := by
    unfold idsChildCommits idsChildGo
    rw [if_neg hguard]
  unfold idsSearch
  rw [hcommits]
  simp only [List.take_nil, List.getLast?_nil]
  rw [hexp]

theorem C10_witness :
    idsSearch (fun (_ : Unit) (_ : Nat) => [7]) (fun (_ : Nat) => true)
      (fun _ => 0) (fun i => (i : ℚ)) 0 3 5 () = .ok 7 :=
  C10_ids_zero_budget_fallback (fun _ _ => [7]) (fun _ => true) (fun _ => 0)
    (fun i => (i : ℚ)) (fun i j h => by dsimp only; exact_mod_cast h) 3 5 () 7 [] rfl

end IDS

end MctsRepo
